import Mathlib

/-!
Verification of the dependency-extraction core of
skills/chunk-navigation/scripts/extract-deps.py.

The script is shallowly embedded: every Python function of the script is
translated into a Lean definition of the same name.  File-system reads are
modelled by an explicit snapshot (a function from path strings, exactly as
the script passes them, to file-system entries).  For Python source files
the result of CPython's ast.parse is part of the snapshot (field pyAst):
some stmts when the file parses, none when ast.parse raises SyntaxError.
An uncaught Python exception is modelled by the ExtractResult.raised /
RunResult.raised constructors; sys.exit is normal control flow and is
modelled by the returned exit code.
-/

namespace ExtractDeps

/-- Fragment of the CPython abstract syntax tree that
extract_python_imports inspects: ast.Import carries the dotted names,
ast.ImportFrom carries the optional module and the relative-import level
(the script never reads the level). -/
inductive PyStmt where
  | imp (names : List String)
  | impFrom (module : Option String) (level : Nat)
  | other
deriving DecidableEq

/-- A regular file in the snapshot: its text content, and the outcome of
CPython ast.parse on that content (some stmts on success, none when the
parse raises SyntaxError).  pyAst is consulted only for .py files. -/
structure FileData where
  content : String
  pyAst : Option (List PyStmt) := none
deriving DecidableEq

/-- A file-system entry.  unreadableFile stands for a path whose open or
read raises an error other than FileNotFoundError (PermissionError,
UnicodeDecodeError, ...); directory stands for a path whose open raises
IsADirectoryError.  A missing path is the absence of an entry. -/
inductive FsEntry where
  | file (d : FileData)
  | unreadableFile
  | directory
deriving DecidableEq

/-- Snapshot of the file system, keyed by the literal path strings the
script passes to open / os.path.exists / Path.exists. -/
def Fs : Type := String → Option FsEntry

/-- os.path.exists / Path.exists on the snapshot. -/
def fsExists (fs : Fs) (p : String) : Bool := (fs p).isSome

/-- Result of one extractor call: ok l when the Python function returns
the list l, raised when it lets an exception escape. -/
inductive ExtractResult where
  | raised
  | ok (l : List String)
deriving DecidableEq

/-! ### Character-level helpers for the regex patterns of the script -/

/-- Python regex \s (ASCII): space, tab, newline, carriage return,
vertical tab, form feed. -/
def isWs (c : Char) : Bool :=
  c = ' ' || c = '\t' || c = '\n' || c = '\r' || c = Char.ofNat 11 || c = Char.ofNat 12

/-- Character class [a-zA-Z0-9_] used by the Python fallback patterns. -/
def isIdentChar (c : Char) : Bool :=
  (('a' ≤ c && c ≤ 'z') || ('A' ≤ c && c ≤ 'Z') || ('0' ≤ c && c ≤ '9') || c = '_')

/-- Character class [a-zA-Z0-9_:] of the Rust use pattern. -/
def isRustPathChar (c : Char) : Bool := isIdentChar c || c = ':'

/-- Drop the longest whitespace run (\s*). -/
def dropWsL (cs : List Char) : List Char := cs.dropWhile (fun c => isWs c)

/-- Match a literal (a regex fragment with no metacharacters) and return
the remainder. -/
def stripPre (p : List Char) (cs : List Char) : Option (List Char) :=
  if p.isPrefixOf cs then some (cs.drop p.length) else none

/-- Match \s+ : require one whitespace character and drop the rest of the
run. -/
def ws1 (cs : List Char) : Option (List Char) :=
  match cs with
  | [] => none
  | c :: rest => if isWs c then some (dropWsL rest) else none

/-- Match a single expected character. -/
def expectChar (e : Char) (cs : List Char) : Option (List Char) :=
  match cs with
  | [] => none
  | c :: rest => if c = e then some rest else none

/-- Match ([^q]+)q : a nonempty capture of characters none of which is in
the stop set, terminated by a character of the stop set; returns the
capture and the remainder after the terminator.  The greedy class run is
the maximal run of non-stop characters; the match fails when the run is
empty or no terminator follows it. -/
def capUntil (stop : Char → Bool) (cs : List Char) : Option (List Char × List Char) :=
  match cs.dropWhile (fun c => !stop c) with
  | [] => none
  | _ :: rest =>
    if (cs.takeWhile (fun c => !stop c)).isEmpty then none
    else some (cs.takeWhile (fun c => !stop c), rest)

/-- Maximal run of characters satisfying p, with the remainder. -/
def takeRun (p : Char → Bool) (cs : List Char) : List Char × List Char :=
  (cs.takeWhile p, cs.dropWhile p)

/-- Python str.split(sep) for a one-character separator. -/
def splitOnCharAux (sep : Char) : List Char → List Char → List (List Char)
  | [], acc => [acc.reverse]
  | c :: rest, acc =>
    if c = sep then acc.reverse :: splitOnCharAux sep rest []
    else splitOnCharAux sep rest (c :: acc)

/-- Python str.split(sep) for a one-character separator, over strings. -/
def splitOnChar (sep : Char) (s : String) : List String :=
  (splitOnCharAux sep s.toList []).map String.mk

/-- Python str.split('.')[0]. -/
def topLevel (s : String) : String := (splitOnChar '.' s).headD ""

/-- Python str.split('/')[-1]. -/
def lastSlashSeg (s : String) : String := (splitOnChar '/' s).getLastD ""

/-- Python str.split('/')[0]. -/
def headSlashSeg (s : String) : String := (splitOnChar '/' s).headD ""

/-- The characters before the first occurrence of a double colon:
Python str.split("::")[0]. -/
def upToDoubleColon : List Char → List Char
  | [] => []
  | ':' :: ':' :: _ => []
  | c :: rest => c :: upToDoubleColon rest

/-- Python str.split("::")[0] over strings. -/
def headDoubleColon (s : String) : String := String.mk (upToDoubleColon s.toList)

/-- Whether the string begins with a dot (Python str.startswith('.')). -/
def startsWithDot (s : String) : Bool :=
  match s.toList with
  | '.' :: _ => true
  | _ => false

/-- Line view of a text-mode read: for line in f, without terminators.
The patterns applied per line are all anchored at the line start and never
match the terminator, so the terminator-free view is equivalent. -/
def linesOf (s : String) : List String := splitOnChar '\n' s

/-! ### extract_python_imports -/

/-- Imports recorded from one AST statement: for ast.Import the first
dot-segment of every alias name, for ast.ImportFrom the first dot-segment
of the module when the module is truthy (None and the empty string are
falsy); the relative-import level is ignored, exactly as in the script. -/
def astImports (st : PyStmt) : List String :=
  match st with
  | .imp names => names.map topLevel
  | .impFrom (some m) _ => if m = "" then [] else [topLevel m]
  | .impFrom none _ => []
  | .other => []

/-- Fallback line pattern: re.match r of import \s+ ident or else
from \s+ ident, capturing the maximal [a-zA-Z0-9_]+ run. -/
def pyFallbackLine (line : String) : Option String :=
  let cs := dropWsL line.toList
  let tryKw : List Char → Option String := fun kw =>
    match stripPre kw cs with
    | none => none
    | some r1 =>
      match ws1 r1 with
      | none => none
      | some r2 =>
        let (cap, _) := takeRun isIdentChar r2
        if cap.isEmpty then none else some (String.mk cap)
  match tryKw "import".toList with
  | some m => some m
  | none => tryKw "from".toList

/-- extract_python_imports: parse via ast and walk Import / ImportFrom
nodes; on SyntaxError fall back to the two line patterns; a missing file
raises FileNotFoundError on the first open, the fallback open raises it
again, it is caught and the empty list is returned.  Any other read error
is not caught by the except (SyntaxError, FileNotFoundError) clauses and
escapes. -/
def extract_python_imports (fs : Fs) (path : String) : ExtractResult :=
  match fs path with
  | none => .ok []
  | some .unreadableFile => .raised
  | some .directory => .raised
  | some (.file d) =>
    match d.pyAst with
    | some stmts => .ok (stmts.flatMap astImports)
    | none => .ok ((linesOf d.content).filterMap pyFallbackLine)

/-! ### extract_rust_uses -/

/-- The ::? fragment followed by the capture ([a-zA-Z0-9_:]+): one colon,
greedily a second, then a nonempty capture, backtracking the second colon
into the capture when the capture would otherwise be empty. -/
def rustColonCap (cs : List Char) : Option (List Char) :=
  match cs with
  | ':' :: rest =>
    (match rest with
     | ':' :: rest2 =>
       let (cap, _) := takeRun isRustPathChar rest2
       if cap.isEmpty then
         let (cap2, _) := takeRun isRustPathChar rest
         if cap2.isEmpty then none else some cap2
       else some cap
     | _ =>
       let (cap, _) := takeRun isRustPathChar rest
       if cap.isEmpty then none else some cap)
  | _ => none

/-- One line of extract_rust_uses: the pattern
use \s+ (crate or super or self)? ::? ([a-zA-Z0-9_:]+); the script records
the first :: segment of the capture only when the optional scope group
matched (scope in crate, super, self); with the group empty the scope is
the string external and nothing is recorded. -/
def rustLine (line : String) : Option String :=
  let cs := dropWsL line.toList
  match stripPre "use".toList cs with
  | none => none
  | some r1 =>
    match ws1 r1 with
    | none => none
    | some r2 =>
      let tryScope : List Char → Option String := fun kw =>
        match stripPre kw r2 with
        | none => none
        | some r3 =>
          match rustColonCap r3 with
          | none => none
          | some cap => some (headDoubleColon (String.mk cap))
      match tryScope "crate".toList with
      | some m => some m
      | none =>
        match tryScope "super".toList with
        | some m => some m
        | none => tryScope "self".toList

/-- extract_rust_uses: line-oriented scan; only FileNotFoundError is
caught. -/
def extract_rust_uses (fs : Fs) (path : String) : ExtractResult :=
  match fs path with
  | none => .ok []
  | some .unreadableFile => .raised
  | some .directory => .raised
  | some (.file d) => .ok ((linesOf d.content).filterMap rustLine)

/-! ### extract_go_imports

The single-import pattern import \s+ "([^"]+)" is applied with
re.finditer in MULTILINE mode and is anchored at a line start by a
leading caret; the scan below walks the content while tracking whether
the current position is a line start, attempts the anchored match there,
and on success continues after the match (finditer matches do not
overlap).  \s matches the newline, so the whitespace fragments may span
lines, exactly as in the regex. -/

/-- The anchored fragment \s* import \s+ "([^"]+)" at one position:
returns the capture and the remainder after the closing quote. -/
def trySingle (cs : List Char) : Option (List Char × List Char) :=
  match stripPre "import".toList (dropWsL cs) with
  | none => none
  | some r1 =>
    match ws1 r1 with
    | none => none
    | some r2 =>
      match expectChar '"' r2 with
      | none => none
      | some r3 => capUntil (fun c => c = '"') r3

theorem length_dropWsL_le (cs : List Char) : (dropWsL cs).length ≤ cs.length :=
  (List.dropWhile_sublist _).length_le

theorem stripPre_some_length {p cs r : List Char} (hp : p ≠ [])
    (h : stripPre p cs = some r) : r.length < cs.length := by
  unfold stripPre at h
  split at h
  · rename_i hpre
    cases h
    have hle : p.length ≤ cs.length :=
      (List.isPrefixOf_iff_prefix.mp hpre).length_le
    have hp0 : 0 < p.length := List.length_pos.mpr hp
    simp only [List.length_drop]
    omega
  · exact absurd h (by simp)

theorem ws1_some_length {cs r : List Char} (h : ws1 cs = some r) :
    r.length < cs.length := by
  cases cs with
  | nil => simp [ws1] at h
  | cons c rest =>
    simp only [ws1] at h
    by_cases hw : isWs c = true
    · rw [if_pos hw] at h
      injection h with h
      subst h
      exact Nat.lt_of_le_of_lt (length_dropWsL_le rest) (Nat.lt_succ_self _)
    · rw [if_neg hw] at h
      cases h

theorem expectChar_some_length {e : Char} {cs r : List Char}
    (h : expectChar e cs = some r) : r.length < cs.length := by
  cases cs with
  | nil => simp [expectChar] at h
  | cons c rest =>
    simp only [expectChar] at h
    by_cases hc : c = e
    · rw [if_pos hc] at h
      injection h with h
      subst h
      exact Nat.lt_succ_self _
    · rw [if_neg hc] at h
      cases h

theorem capUntil_some_length {stop : Char → Bool} {cs cap rem : List Char}
    (h : capUntil stop cs = some (cap, rem)) : rem.length < cs.length := by
  unfold capUntil at h
  cases hd : cs.dropWhile (fun c => !stop c) with
  | nil => rw [hd] at h; cases h
  | cons x rest =>
    rw [hd] at h
    dsimp only at h
    split at h
    · cases h
    · injection h with h
      have hlen : (cs.dropWhile (fun c => !stop c)).length ≤ cs.length :=
        (List.dropWhile_sublist _).length_le
      rw [hd] at hlen
      simp only [List.length_cons] at hlen
      have hsnd : rest = rem := congrArg Prod.snd h
      subst hsnd
      omega

theorem trySingle_some_length {cs cap rem : List Char}
    (h : trySingle cs = some (cap, rem)) : rem.length < cs.length := by
  unfold trySingle at h
  split at h
  · cases h
  · rename_i r1 h1
    split at h
    · cases h
    · rename_i r2 h2
      split at h
      · cases h
      · rename_i r3 h3
        have l1 : r1.length < cs.length :=
          Nat.lt_of_lt_of_le (stripPre_some_length (by simp) h1)
            (length_dropWsL_le cs)
        have l2 := ws1_some_length h2
        have l3 := expectChar_some_length h3
        have l4 := capUntil_some_length h
        omega

/-- The finditer scan for the single-import pattern: the list is the
rest of the content, atStart records whether the current position is a
line start (string start or just after a newline); a successful match
consumes up to its end, a failed attempt moves one character.  The fuel
argument only bounds the recursion: every step consumes at least one
character (trySingle_some_length), so any fuel of at least the content
length computes the full scan (scanAux_fuel below). -/
def scanAux : Nat → List Char → Bool → List (List Char)
  | 0, _, _ => []
  | _ + 1, [], _ => []
  | fuel + 1, c :: rest, false => scanAux fuel rest (c == '\n')
  | fuel + 1, c :: rest, true =>
    match trySingle (c :: rest) with
    | some (cap, rem) => cap :: scanAux fuel rem false
    | none => scanAux fuel rest (c == '\n')

theorem scanAux_nil (f : Nat) (b : Bool) : scanAux f [] b = [] := by
  cases f <;> rfl

theorem scanAux_fuel :
    ∀ (f1 f2 : Nat) (cs : List Char) (b : Bool), cs.length ≤ f1 →
      cs.length ≤ f2 → scanAux f1 cs b = scanAux f2 cs b := by
  intro f1
  induction f1 with
  | zero =>
    intro f2 cs b h1 _
    have : cs = [] := List.length_eq_zero.mp (Nat.le_zero.mp h1)
    subst this
    rw [scanAux_nil, scanAux_nil]
  | succ f1 ih =>
    intro f2 cs b h1 h2
    cases cs with
    | nil => rw [scanAux_nil, scanAux_nil]
    | cons c rest =>
      simp only [List.length_cons] at h1 h2
      cases f2 with
      | zero => omega
      | succ g =>
        cases b with
        | false =>
          show scanAux f1 rest (c == '\n') = scanAux g rest (c == '\n')
          exact ih g rest _ (by omega) (by omega)
        | true =>
          show (match trySingle (c :: rest) with
                | some (cap, rem) => cap :: scanAux f1 rem false
                | none => scanAux f1 rest (c == '\n')) =
               (match trySingle (c :: rest) with
                | some (cap, rem) => cap :: scanAux g rem false
                | none => scanAux g rest (c == '\n'))
          cases h : trySingle (c :: rest) with
          | none => exact ih g rest _ (by omega) (by omega)
          | some pr =>
            obtain ⟨cap, rem⟩ := pr
            have hlen := trySingle_some_length h
            simp only [List.length_cons] at hlen
            exact congrArg (cap :: ·) (ih g rem _ (by omega) (by omega))

/-- All captures of the single-import pattern over the content. -/
def scanSingle (cs : List Char) : List (List Char) := scanAux cs.length cs true

/-- The capture (.*?) of import \s* \( (.*?) \) in DOTALL mode: the
non-greedy star stops at the first closing parenthesis; with no closing
parenthesis the match attempt at this position fails. -/
def upToParen : List Char → Option (List Char)
  | [] => none
  | c :: rest => if c = ')' then some [] else (upToParen rest).map (c :: ·)

/-- The fragment import \s* \( (.*?) \) attempted at one position. -/
def tryBlockAt (cs : List Char) : Option (List Char) :=
  match stripPre "import".toList cs with
  | none => none
  | some r1 =>
    match expectChar '(' (dropWsL r1) with
    | none => none
    | some r2 => upToParen r2

/-- re.search of the block pattern: the match at the leftmost position
where the fragment succeeds; later import blocks are never reached. -/
def findBlockAux : List Char → Option (List Char)
  | [] => none
  | c :: rest =>
    match tryBlockAt (c :: rest) with
    | some cap => some cap
    | none => findBlockAux rest

/-- Per-line pattern "([^"]+)" with leading \s*, applied inside the
block capture. -/
def goBlockLine (line : String) : Option String :=
  match expectChar '"' (dropWsL line.toList) with
  | none => none
  | some r => (capUntil (fun c => c = '"') r).map (fun p => String.mk p.1)

/-- extract_go_imports: single-form captures over the whole content, then
the lines of the first parenthesised block; each quoted path is reduced
to its final slash segment; only FileNotFoundError is caught. -/
def extract_go_imports (fs : Fs) (path : String) : ExtractResult :=
  match fs path with
  | none => .ok []
  | some .unreadableFile => .raised
  | some .directory => .raised
  | some (.file d) =>
    let cs := d.content.toList
    let singles := (scanSingle cs).map (fun cap => lastSlashSeg (String.mk cap))
    let blockPkgs :=
      match findBlockAux cs with
      | none => []
      | some cap =>
        ((splitOnChar '\n' (String.mk cap)).filterMap goBlockLine).map lastSlashSeg
    .ok (singles ++ blockPkgs)

/-! ### extract_js_imports -/

/-- Either quote character of the classes [\x27"] and [^\x27"]. -/
def isQuote (c : Char) : Bool := c = Char.ofNat 39 || c = '"'

/-- The tail fragment \s+ from \s+ [quote] ([^quotes]+) [quote] of
the import pattern, attempted at one suffix position. -/
def jsWsFrom (cs : List Char) : Option (List Char) :=
  match ws1 cs with
  | none => none
  | some r1 =>
    match stripPre "from".toList r1 with
    | none => none
    | some r2 =>
      match ws1 r2 with
      | none => none
      | some r3 =>
        match r3 with
        | [] => none
        | q :: r4 =>
          if isQuote q then (capUntil isQuote r4).map (fun p => p.1) else none

/-- Greedy .* with backtracking: the rightmost suffix at which the tail
fragment matches wins. -/
def jsFromSearch : List Char → Option (List Char)
  | [] => none
  | c :: rest =>
    match jsFromSearch rest with
    | some cap => some cap
    | none => jsWsFrom (c :: rest)

/-- The pattern import \s+ .* \s+ from \s+ [quote]([^quotes]+)[quote]
anchored at the line start with leading \s*.  The \s+ after import
consumes one mandatory whitespace character; any further whitespace is
available to the greedy .* and to the \s+ before from. -/
def jsImportFrom (line : String) : Option String :=
  match stripPre "import".toList (dropWsL line.toList) with
  | none => none
  | some r1 =>
    match r1 with
    | [] => none
    | c :: rest =>
      if isWs c then (jsFromSearch rest).map String.mk else none

/-- The pattern require \( [quote]([^quotes]+)[quote] \) with re.match:
anchored at the very start of the line, no leading whitespace allowed. -/
def jsRequire (line : String) : Option String :=
  match stripPre "require(".toList line.toList with
  | none => none
  | some r1 =>
    match r1 with
    | [] => none
    | q :: r2 =>
      if isQuote q then
        match capUntil isQuote r2 with
        | none => none
        | some (cap, rem) =>
          match expectChar ')' rem with
          | none => none
          | some _ => some (String.mk cap)
      else none

/-- One line of extract_js_imports: the import-from branch, or else the
require branch; a relative specifier (leading dot) is discarded, any
other specifier is reduced to its first slash segment. -/
def jsLine (line : String) : Option String :=
  match jsImportFrom line with
  | some m => if startsWithDot m then none else some (headSlashSeg m)
  | none =>
    match jsRequire line with
    | some m => if startsWithDot m then none else some (headSlashSeg m)
    | none => none

/-- extract_js_imports: line-oriented scan; only FileNotFoundError is
caught. -/
def extract_js_imports (fs : Fs) (path : String) : ExtractResult :=
  match fs path with
  | none => .ok []
  | some .unreadableFile => .raised
  | some .directory => .raised
  | some (.file d) => .ok ((linesOf d.content).filterMap jsLine)

/-! ### extract_file_imports (extension dispatch) -/

/-- pathlib Path.suffix: the extension of the final path component; empty
when the name has no dot, starts with its only dot, or ends with a
dot. -/
def pathSuffix (p : String) : String :=
  let nm := (splitOnChar '/' p).getLastD ""
  let parts := splitOnChar '.' nm
  if parts.length ≤ 1 then ""
  else if parts.getLastD "" = "" then ""
  else if parts.length = 2 && parts.headD "" = "" then ""
  else "." ++ parts.getLastD ""

/-- extract_file_imports: dispatch on the file extension; unsupported
extensions yield the empty list without touching the file system. -/
def extract_file_imports (fs : Fs) (path : String) : ExtractResult :=
  let ext := pathSuffix path
  if ext = ".py" then extract_python_imports fs path
  else if ext = ".rs" then extract_rust_uses fs path
  else if ext = ".go" then extract_go_imports fs path
  else if ext = ".js" || ext = ".jsx" || ext = ".ts" || ext = ".tsx" then
    extract_js_imports fs path
  else .ok []

/-! ### categorize_imports -/

/-- Python standard-library allow-list of the script. -/
def python_stdlib : List String :=
  ["os", "sys", "json", "time", "datetime", "pathlib", "re", "collections",
   "itertools", "functools", "typing", "asyncio", "subprocess", "logging"]

/-- Rust standard-library allow-list of the script. -/
def rust_stdlib : List String := ["std", "alloc", "core"]

/-- Go standard-library allow-list of the script. -/
def go_stdlib : List String :=
  ["fmt", "os", "io", "time", "strings", "errors", "context", "sync"]

/-- Node built-in allow-list of the script. -/
def js_builtins : List String :=
  ["fs", "path", "util", "os", "crypto", "http", "https", "stream"]

/-- Membership in the merged allow-list
python_stdlib | rust_stdlib | go_stdlib | js_builtins. -/
def stdlib_modules (s : String) : Bool :=
  python_stdlib.contains s || rust_stdlib.contains s || go_stdlib.contains s
    || js_builtins.contains s

/-- The four candidate paths probed under the project root. -/
def potential_paths (root imp : String) : List String :=
  [root ++ "/" ++ imp, root ++ "/" ++ imp ++ ".py",
   root ++ "/src/" ++ imp, root ++ "/lib/" ++ imp]

/-- Whether any candidate path exists in the snapshot. -/
def candidateExists (fs : Fs) (root imp : String) : Bool :=
  (potential_paths root imp).any (fun p => fsExists fs p)

/-- categorize_imports: drop allow-list hits, then split the rest into
internal (some candidate path exists) and external, appending in input
order. -/
def categorize_imports (imports : List String) (fs : Fs) (root : String) :
    List String × List String :=
  imports.foldl (fun acc imp =>
    if stdlib_modules imp then acc
    else if candidateExists fs root imp then (acc.1 ++ [imp], acc.2)
    else (acc.1, acc.2 ++ [imp])) ([], [])

/-! ### Chunk registry -/

/-- A chunk as read from .claude/.chunks.json; only the fields the
script touches are modelled (id, name, status, files). -/
structure Chunk where
  id : String
  name : String
  status : String
  files : List String
deriving DecidableEq

/-- The registry document: the chunk list and the optional current
chunk id. -/
structure ChunksData where
  chunks : List Chunk
  current_chunk : Option String
deriving DecidableEq

/-- get_chunk: first chunk with the requested id. -/
def get_chunk (d : ChunksData) (cid : String) : Option Chunk :=
  d.chunks.find? (fun c => c.id == cid)

/-- find_chunk_for_file: id of the first chunk whose member list contains
the path. -/
def find_chunk_for_file (d : ChunksData) (path : String) : Option String :=
  (d.chunks.find? (fun c => c.files.contains path)).map Chunk.id

/-! ### Counting and ordering (collections.Counter, sorted) -/

/-- Distinct elements in first-occurrence order: the key order of a
Counter / dict built by insertion. -/
def dedupFirst (l : List String) : List String :=
  l.foldl (fun acc x => if acc.contains x then acc else acc ++ [x]) []

/-- Stable descending insertion by count: an element is placed after
every already-placed element of greater or equal count. -/
def insDesc (x : String × Nat) : List (String × Nat) → List (String × Nat)
  | [] => [x]
  | y :: ys => if x.2 ≤ y.2 then y :: insDesc x ys else x :: y :: ys

/-- Stable sort, descending by count, ties in input order: the order of
sorted(items, key=count, reverse=True) and of heapq.nlargest. -/
def sortDescByCount (l : List (String × Nat)) : List (String × Nat) :=
  l.foldl (fun acc x => insDesc x acc) []

/-- Counter(l).most_common(): pairs (element, multiplicity) in descending
multiplicity, ties in first-seen order. -/
def most_common (l : List String) : List (String × Nat) :=
  sortDescByCount ((dedupFirst l).map (fun x => (x, l.count x)))

/-- Counter(l).most_common(n). -/
def most_common_n (n : Nat) (l : List String) : List (String × Nat) :=
  (most_common l).take n

/-- Stable ascending insertion under the code-point order of Python
string comparison. -/
def insAsc (x : String) : List String → List String
  | [] => [x]
  | y :: ys => if x < y then x :: y :: ys else y :: insAsc x ys

/-- sorted() on strings. -/
def sortStrAsc (l : List String) : List String :=
  l.foldl (fun acc x => insAsc x acc) []

/-- Stable ascending insertion of key-value pairs by key. -/
def insAscPair (x : String × List String) :
    List (String × List String) → List (String × List String)
  | [] => [x]
  | y :: ys => if x.1 < y.1 then x :: y :: ys else y :: insAscPair x ys

/-- sorted(dict.items()): ascending by key (keys are distinct). -/
def sortByFst (l : List (String × List String)) : List (String × List String) :=
  l.foldl (fun acc x => insAscPair x acc) []

/-! ### Report rendering (main, lines 236-341)

Standard output and the error stream are modelled as lists of printed
lines.  The iteration order of the Python set cross_chunk_deps depends on
the per-process string-hash seed; it enters the model as the setOrder
parameter, a function producing the iteration order of the computed
membership list. -/

/-- The 60-dash separator. -/
def dashes : String := String.mk (List.replicate 60 '-')

/-- The 60-equals separator. -/
def eqLine : String := String.mk (List.replicate 60 '=')

/-- Owning-chunk annotation of one internal module (lines 269-275): the
single probe is project_root/module.py; when that path exists, its owning
chunk is looked up and reported when it is a different chunk (a falsy
empty id is skipped, as in the truthiness test of the code). -/
def internalAnnotation (d : ChunksData) (chunkId root : String) (fs : Fs)
    (module : String) : Option String :=
  if fsExists fs (root ++ "/" ++ module ++ ".py") then
    match find_chunk_for_file d (root ++ "/" ++ module ++ ".py") with
    | some depId =>
      if depId ≠ "" ∧ depId ≠ chunkId then (get_chunk d depId).map Chunk.name
      else none
    | none => none
  else none

/-- Internal-dependency section (lines 263-276). -/
def internalSection (d : ChunksData) (chunkId root : String) (fs : Fs)
    (internal : List String) : List String :=
  if internal.isEmpty then []
  else
    ("Internal Dependencies (" ++ toString (dedupFirst internal).length
        ++ " unique):")
      :: dashes
      :: ((most_common internal).flatMap (fun mc =>
           ("  • " ++ mc.1 ++ " (" ++ toString mc.2 ++ " imports)") ::
           (match internalAnnotation d chunkId root fs mc.1 with
            | some nm => ["    → Chunk: " ++ nm]
            | none => [])))
      ++ [""]

/-- External-dependency section (lines 279-286): at most the ten most
common modules, then the overflow count. -/
def externalSection (external : List String) : List String :=
  if external.isEmpty then []
  else
    ("External Dependencies (" ++ toString (dedupFirst external).length
        ++ " unique):")
      :: dashes
      :: ((most_common_n 10 external).map (fun mc =>
            "  • " ++ mc.1 ++ " (" ++ toString mc.2 ++ " imports)"))
      ++ (if (dedupFirst external).length > 10 then
            ["  ... and " ++ toString ((dedupFirst external).length - 10)
               ++ " more"]
          else [])
      ++ [""]

/-- Append an element to a set-membership list unless present. -/
def addUnique (l : List String) (x : String) : List String :=
  if l.contains x then l else l ++ [x]

/-- The four heuristic candidate files probed for a cross-chunk edge;
these are raw relative paths resolved against the working directory. -/
def cross_candidates (imp : String) : List String :=
  [imp ++ ".py", "src/" ++ imp ++ ".py", imp ++ ".rs", "src/" ++ imp ++ ".rs"]

/-- Membership of the set cross_chunk_deps (lines 289-305), in insertion
order; perFile holds the per-file extraction results in member-file
order (the script re-runs extraction here; on the unchanged snapshot the
results are those of the first pass). -/
def crossChunkDeps (d : ChunksData) (chunkId : String) (fs : Fs)
    (perFile : List (List String)) : List String :=
  perFile.flatten.foldl (fun acc imp =>
    (cross_candidates imp).foldl (fun acc2 pf =>
      if fsExists fs pf then
        match find_chunk_for_file d pf with
        | some depId =>
          if depId ≠ "" ∧ depId ≠ chunkId then addUnique acc2 depId else acc2
        | none => acc2
      else acc2) acc) []

/-- Cross-chunk section (lines 307-315), over the iteration order of the
set.  A dep id always names an existing chunk (it was produced by
find_chunk_for_file); the impossible missing-id case renders nothing. -/
def crossSection (d : ChunksData) (ordered : List String) : List String :=
  if ordered.isEmpty then []
  else
    ("Cross-Chunk Dependencies (" ++ toString ordered.length ++ " chunks):")
      :: dashes
      :: (ordered.flatMap (fun depId =>
           match get_chunk d depId with
           | some c => ["  • " ++ c.name, "    ID: " ++ depId,
                        "    Status: " ++ c.status]
           | none => []))
      ++ [""]

/-- Python Path(file).name: the final path component. -/
def baseName (p : String) : String := (splitOnChar '/' p).getLastD ""

/-- Per-file breakdown entry (lines 320-325): count, at most five
distinct imports in sorted order, and the overflow count. -/
def fileEntry (file : String) (imports : List String) : List String :=
  ("  " ++ baseName file ++ ": " ++ toString imports.length ++ " imports")
    :: ((sortStrAsc (dedupFirst imports)).take 5).map
         (fun imp => "    - " ++ imp)
    ++ (if (dedupFirst imports).length > 5 then
          ["    ... and " ++ toString ((dedupFirst imports).length - 5)
             ++ " more"]
        else [])

/-- Per-file section (lines 317-326), files sorted by path. -/
def fileSection (fileImports : List (String × List String)) : List String :=
  "Per-File Imports:" :: dashes
    :: (sortByFst fileImports).flatMap (fun p => fileEntry p.1 p.2)
    ++ [""]

/-- avg_per_file (line 331): total / len(files) if files else 0, with
exact rational division in place of the Python float division. -/
def avgOf (total : Nat) (files : List String) : ℚ :=
  if files.isEmpty then 0 else (total : ℚ) / (files.length : ℚ)

/-- Rendering of the .1f format for a nonnegative rational: the value
rounded to one decimal (the model rounds half up; the float format
rounds the nearest double half to even — the difference is immaterial to
every claim, which concern the value, not its digits). -/
def fmtAvg (q : ℚ) : String :=
  let t : Int := (20 * q.num + (q.den : Int)) / (2 * (q.den : Int))
  toString (t / 10) ++ "." ++ toString (t % 10)

/-- Summary section (lines 328-340). -/
def summarySection (allImports internal external : List String)
    (fileImports : List (String × List String)) (files : List String) :
    List String :=
  ["Summary:", dashes,
   "  Total imports: " ++ toString allImports.length,
   "  Unique modules: " ++ toString (dedupFirst allImports).length,
   "  Internal modules: " ++ toString (dedupFirst internal).length,
   "  External modules: " ++ toString (dedupFirst external).length,
   "  Average imports per file: " ++ fmtAvg (avgOf allImports.length files),
   "  Files with imports: " ++ toString fileImports.length ++ "/"
     ++ toString files.length]

/-! ### main -/

/-- Outcome of a completed process: exit code and the two streams as
line lists. -/
structure MainOut where
  exitCode : Nat
  stdoutLines : List String
  stderrLines : List String
deriving DecidableEq

/-- A run either completes (sys.exit) or dies on an uncaught exception
from an extractor. -/
inductive RunResult where
  | raised
  | finished (out : MainOut)
deriving DecidableEq

/-- Extraction over the member files, in order; none when some extractor
raises. -/
def extractAll (fs : Fs) : List String → Option (List (List String))
  | [] => some []
  | f :: rest =>
    match extract_file_imports fs f with
    | .raised => none
    | .ok l => (extractAll fs rest).map (fun ls => l :: ls)

/-- A fatal single-line diagnostic: exit 1, empty stdout. -/
def errorOut (msg : String) : MainOut := ⟨1, [], [msg]⟩

/-- The diagnostic of load_chunks for the default registry path. -/
def chunksFileMissingMsg : String :=
  "Error: Chunks file not found: .claude/.chunks.json"

/-- Resolution of the chunk id (lines 218-226): the argument when given,
otherwise the registry current_chunk, which must be set and truthy. -/
def resolveChunkId (argv : Option String) (reg : Option ChunksData) :
    Except MainOut String :=
  match argv with
  | some cid => .ok cid
  | none =>
    match reg with
    | none => .error (errorOut chunksFileMissingMsg)
    | some d =>
      match d.current_chunk with
      | none => .error (errorOut "Error: No current chunk set")
      | some c =>
        if c = "" then .error (errorOut "Error: No current chunk set")
        else .ok c

/-- The three header lines (lines 236-238). -/
def headerLines (chunk : Chunk) : List String :=
  ["Dependency Analysis: " ++ chunk.name, eqLine, ""]

/-- The report body after the header (lines 254-340), given the
per-file extraction results and the iteration order of the
cross-chunk dependency set. -/
def reportBody (d : ChunksData) (chunkId root : String) (fs : Fs)
    (chunk : Chunk) (perFile : List (List String))
    (orderedDeps : List String) : List String :=
  let allImports := perFile.flatten
  let fileImports := (chunk.files.zip perFile).filter (fun p => !p.2.isEmpty)
  let cat := categorize_imports allImports fs root
  internalSection d chunkId root fs cat.1
    ++ externalSection cat.2
    ++ crossSection d orderedDeps
    ++ fileSection fileImports
    ++ summarySection allImports cat.1 cat.2 fileImports chunk.files

/-- The run on a resolved chunk (lines 236-342). -/
def runReport (d : ChunksData) (chunkId : String) (chunk : Chunk) (fs : Fs)
    (root : String) (setOrder : List String → List String) : RunResult :=
  match extractAll fs chunk.files with
  | none => .raised
  | some perFile =>
    if perFile.flatten.isEmpty then
      .finished ⟨0, headerLines chunk ++ ["No imports found in chunk files."], []⟩
    else
      .finished ⟨0, headerLines chunk
        ++ reportBody d chunkId root fs chunk perFile
             (setOrder (crossChunkDeps d chunkId fs perFile)), []⟩

/-- main: argv is the optional chunk-id argument, reg the registry
document (none when .claude/.chunks.json is missing), root the working
directory, setOrder the set-iteration order of the process (a
permutation of the insertion-order membership list). -/
def mainRun (argv : Option String) (reg : Option ChunksData) (fs : Fs)
    (root : String) (setOrder : List String → List String) : RunResult :=
  match resolveChunkId argv reg with
  | .error out => .finished out
  | .ok chunkId =>
    match reg with
    | none => .finished (errorOut chunksFileMissingMsg)
    | some d =>
      match get_chunk d chunkId with
      | none => .finished (errorOut ("Error: Chunk not found: " ++ chunkId))
      | some chunk => runReport d chunkId chunk fs root setOrder

/-! ### Supporting lemmas -/

theorem categorize_foldl (imports : List String) (fs : Fs) (root : String)
    (int ext : List String) :
    imports.foldl (fun acc imp =>
        if stdlib_modules imp then acc
        else if candidateExists fs root imp then (acc.1 ++ [imp], acc.2)
        else (acc.1, acc.2 ++ [imp])) (int, ext)
      = (int ++ imports.filter
            (fun i => !stdlib_modules i && candidateExists fs root i),
         ext ++ imports.filter
            (fun i => !stdlib_modules i && !candidateExists fs root i)) := by
  induction imports generalizing int ext with
  | nil => simp
  | cons i rest ih =>
    simp only [List.foldl_cons, List.filter_cons]
    by_cases h1 : stdlib_modules i
    · simp [h1, ih]
    · by_cases h2 : candidateExists fs root i
      · simp [h1, h2, ih]
      · simp [h1, h2, ih]

theorem categorize_eq_filter (imports : List String) (fs : Fs) (root : String) :
    categorize_imports imports fs root
      = (imports.filter (fun i => !stdlib_modules i && candidateExists fs root i),
         imports.filter (fun i => !stdlib_modules i && !candidateExists fs root i)) := by
  unfold categorize_imports
  rw [categorize_foldl]
  simp

theorem count_filter_eq (p : String → Bool) (l : List String) (x : String) :
    (l.filter p).count x = if p x then l.count x else 0 := by
  by_cases h : p x
  · rw [List.count_filter h, if_pos h]
  · rw [if_neg h, List.count_eq_zero]
    intro hm
    exact h (List.mem_filter.mp hm).2

/-! ### Claim C1 -/

/-- C1: for every list of raw imports, project root and file-system
snapshot, classification partitions the raw imports with no
double-counting: the internal and external lists are exactly the
sublists of non-allow-list identifiers whose candidate-path probe
succeeds resp. fails, every allow-list identifier is dropped from both,
the multiplicities add up, and a remaining identifier lands in exactly
the side its candidate probe dictates. -/
theorem c1_classification_partition (imports : List String) (fs : Fs)
    (root : String) (x : String) :
    (categorize_imports imports fs root).1
        = imports.filter (fun i => !stdlib_modules i && candidateExists fs root i)
    ∧ (categorize_imports imports fs root).2
        = imports.filter (fun i => !stdlib_modules i && !candidateExists fs root i)
    ∧ ((categorize_imports imports fs root).1.count x
        + (categorize_imports imports fs root).2.count x
        = if stdlib_modules x then 0 else imports.count x)
    ∧ (x ∈ (categorize_imports imports fs root).1
        ↔ x ∈ imports ∧ stdlib_modules x = false ∧ candidateExists fs root x = true)
    ∧ (x ∈ (categorize_imports imports fs root).2
        ↔ x ∈ imports ∧ stdlib_modules x = false ∧ candidateExists fs root x = false) := by
  have h := categorize_eq_filter imports fs root
  refine ⟨congrArg Prod.fst h, congrArg Prod.snd h, ?_, ?_, ?_⟩
  · rw [congrArg Prod.fst h, congrArg Prod.snd h, count_filter_eq, count_filter_eq]
    by_cases hs : stdlib_modules x <;> by_cases hc : candidateExists fs root x <;>
      simp [hs, hc]
  · rw [congrArg Prod.fst h]
    simp only [List.mem_filter, Bool.and_eq_true, Bool.not_eq_true']
    try tauto
  · rw [congrArg Prod.snd h]
    simp only [List.mem_filter, Bool.and_eq_true, Bool.not_eq_true',
      Bool.not_eq_true]
    try tauto

/-! ### Claim C2 -/

/-- Snapshot for the Python scenario: one file app.py whose content is
the three statements import os, import requests,
from .utils import helper.  CPython parses the third statement as
ImportFrom(module = utils, level = 1). -/
def fsC2 : Fs := fun p =>
  if p = "app.py" then
    some (.file
      { content := "import os\nimport requests\nfrom .utils import helper\n",
        pyAst := some [.imp ["os"], .imp ["requests"],
                       .impFrom (some "utils") 1] })
  else none

/-- C2 counterexample: on the scenario file the AST walk records the
module of the relative import (node.module is the truthy string utils
even though node.level is 1), so extraction yields os, requests, utils
and the external table is requests, utils — not requests alone as the
claim states. -/
theorem c2_counterexample :
    extract_file_imports fsC2 "app.py" = .ok ["os", "requests", "utils"]
    ∧ categorize_imports ["os", "requests", "utils"] fsC2 "/proj"
        = ([], ["requests", "utils"])
    ∧ ¬ (categorize_imports ["os", "requests", "utils"] fsC2 "/proj"
        = ([], ["requests"])) := by
  refine ⟨by decide, by decide, by decide⟩

/-- C2 amended: extraction of the scenario file yields os, requests and
utils (the relative from .utils import helper statement does contribute
the raw import utils, since the AST walk reads only node.module);
classification drops os as standard library and, with no utils candidate
path under the root, yields an empty internal table and the external
frequency table requests 1, utils 1. -/
theorem c2_amended :
    extract_file_imports fsC2 "app.py" = .ok ["os", "requests", "utils"]
    ∧ (categorize_imports ["os", "requests", "utils"] fsC2 "/proj").1 = []
    ∧ most_common (categorize_imports ["os", "requests", "utils"] fsC2 "/proj").2
        = [("requests", 1), ("utils", 1)]
    ∧ stdlib_modules "os" = true := by
  refine ⟨by decide, by decide, by decide, by decide⟩

/-! ### Claim C3 -/

/-- Snapshot with a single unreadable path bad.py (open or read raises
an error other than FileNotFoundError, e.g. PermissionError or
UnicodeDecodeError). -/
def fsC3bad : Fs := fun p => if p = "bad.py" then some .unreadableFile else none

/-- C3 counterexample: an unreadable .py file makes the Python extractor
and hence the dispatcher raise — the except clauses catch only
SyntaxError and FileNotFoundError, so extraction does abort the run on
such a file. -/
theorem c3_counterexample :
    extract_file_imports fsC3bad "bad.py" = .raised
    ∧ extract_python_imports fsC3bad "bad.py" = .raised := by
  refine ⟨by decide, by decide⟩

/-- C3 amended: every per-language extractor and the dispatcher return a
list without raising for every path whose target is either absent or a
readable text file (parsable or not); read failures other than
FileNotFoundError (permission errors, undecodable bytes, a directory in
place of a file) propagate out of the four extractors, and an
unsupported extension always yields the empty list without touching the
file system. -/
theorem c3_no_raise_on_readable (fs : Fs) (path : String)
    (h : ∀ e, fs path = some e → ∃ fd, e = FsEntry.file fd) :
    extract_python_imports fs path ≠ .raised
    ∧ extract_rust_uses fs path ≠ .raised
    ∧ extract_go_imports fs path ≠ .raised
    ∧ extract_js_imports fs path ≠ .raised
    ∧ extract_file_imports fs path ≠ .raised := by
  have hpy : extract_python_imports fs path ≠ .raised := by
    unfold extract_python_imports
    cases hf : fs path with
    | none => simp
    | some e =>
      obtain ⟨fd, rfl⟩ := h e hf
      rcases hp : fd.pyAst with _ | stmts <;> simp [hp]
  have hrs : extract_rust_uses fs path ≠ .raised := by
    unfold extract_rust_uses
    cases hf : fs path with
    | none => simp
    | some e =>
      obtain ⟨fd, rfl⟩ := h e hf
      simp
  have hgo : extract_go_imports fs path ≠ .raised := by
    unfold extract_go_imports
    cases hf : fs path with
    | none => simp
    | some e =>
      obtain ⟨fd, rfl⟩ := h e hf
      simp
  have hjs : extract_js_imports fs path ≠ .raised := by
    unfold extract_js_imports
    cases hf : fs path with
    | none => simp
    | some e =>
      obtain ⟨fd, rfl⟩ := h e hf
      simp
  refine ⟨hpy, hrs, hgo, hjs, ?_⟩
  unfold extract_file_imports
  dsimp only
  split_ifs <;> first
    | exact hpy | exact hrs | exact hgo | exact hjs | simp

/-- C3 amended witness at the empty snapshot and the path x.py. -/
theorem c3_no_raise_witness :
    extract_python_imports (fun _ => none) "x.py" ≠ .raised
    ∧ extract_rust_uses (fun _ => none) "x.py" ≠ .raised
    ∧ extract_go_imports (fun _ => none) "x.py" ≠ .raised
    ∧ extract_js_imports (fun _ => none) "x.py" ≠ .raised
    ∧ extract_file_imports (fun _ => none) "x.py" ≠ .raised :=
  c3_no_raise_on_readable (fun _ => none) "x.py"
    (fun _ he => absurd he (by simp))

/-! ### Claim C7 -/

/-- The Go scenario file: a single-line import of fmt and a block
with encoding/json and github.com/foo/bar. -/
def goC7 : String :=
  "package main\n\nimport \"fmt\"\n\nimport (\n\t\"encoding/json\"\n\t\"github.com/foo/bar\"\n)\n"

/-- Snapshot holding only the Go scenario file. -/
def fsC7 : Fs :=
  fun p => if p = "main.go" then some (.file { content := goC7 }) else none

/-- C7: extraction of the scenario Go file yields exactly fmt, json, bar
(each quoted path reduced to its final slash segment); classification
drops fmt and json through the merged allow-list (fmt from the Go list,
json from the Python list — the lists are merged before the test) and
classifies bar as external when no candidate path exists. -/
theorem c7_go_scenario :
    extract_file_imports fsC7 "main.go" = .ok ["fmt", "json", "bar"]
    ∧ categorize_imports ["fmt", "json", "bar"] (fun _ => none) "/proj"
        = ([], ["bar"])
    ∧ stdlib_modules "fmt" = true
    ∧ stdlib_modules "json" = true
    ∧ go_stdlib.contains "fmt" = true
    ∧ python_stdlib.contains "json" = true := by
  refine ⟨by decide, by decide, by decide, by decide, by decide, by decide⟩

/-! ### Claim C10 -/

/-- C10: the owning-chunk annotation of an internal module probes the
single path root/module.py; whenever that path is absent the annotation
is none for every registry — even for a module classified internal via
the src candidate and owned by another chunk. -/
theorem c10_annotation_single_probe (d : ChunksData) (chunkId root : String)
    (fs : Fs) (module : String)
    (hpy : fs (root ++ "/" ++ module ++ ".py") = none) :
    internalAnnotation d chunkId root fs module = none
    ∧ (stdlib_modules module = false →
        fsExists fs (root ++ "/src/" ++ module) = true →
        module ∈ (categorize_imports [module] fs root).1) := by
  constructor
  · unfold internalAnnotation
    rw [if_neg]
    simp [fsExists, hpy]
  · intro hstd hsrc
    rw [congrArg Prod.fst (categorize_eq_filter [module] fs root)]
    have hcand : candidateExists fs root module = true := by
      unfold candidateExists potential_paths
      simp only [List.any_cons, List.any_nil, Bool.or_eq_true]
      tauto
    simp [hstd, hcand]

/-- Snapshot for the C10 witness: the directory root/src/m exists, the
file root/m.py does not. -/
def fsC10 : Fs :=
  fun p => if p = "/proj/src/m" then some .directory else none

/-- Registry for the C10 witness: a second chunk owns the defining
path. -/
def regC10 : ChunksData :=
  { chunks := [⟨"cur", "Current", "pending", ["a.py"]⟩,
               ⟨"other", "Other", "complete", ["/proj/src/m"]⟩],
    current_chunk := some "cur" }

/-- C10 witness: module m is classified internal via the src candidate,
another chunk owns the defining path, yet the annotation is none because
only /proj/m.py is probed. -/
theorem c10_annotation_witness :
    internalAnnotation regC10 "cur" "/proj" fsC10 "m" = none
    ∧ (stdlib_modules "m" = false →
        fsExists fsC10 ("/proj" ++ "/src/" ++ "m") = true →
        "m" ∈ (categorize_imports ["m"] fsC10 "/proj").1) :=
  c10_annotation_single_probe regC10 "cur" "/proj" fsC10 "m" (by decide)

/-! ### Claim C5 -/

theorem insDesc_length (x : String × Nat) (l : List (String × Nat)) :
    (insDesc x l).length = l.length + 1 := by
  induction l with
  | nil => rfl
  | cons y ys ih =>
    unfold insDesc
    split
    · simp [ih]
    · simp

theorem sortDescByCount_length (l : List (String × Nat)) :
    (sortDescByCount l).length = l.length := by
  have key : ∀ (l acc : List (String × Nat)),
      (l.foldl (fun acc x => insDesc x acc) acc).length
        = acc.length + l.length := by
    intro l
    induction l with
    | nil => intro acc; simp
    | cons x rest ih =>
      intro acc
      simp only [List.foldl_cons]
      rw [ih, insDesc_length]
      simp only [List.length_cons]
      omega
  unfold sortDescByCount
  rw [key]
  simp

theorem most_common_length (l : List String) :
    (most_common l).length = (dedupFirst l).length := by
  unfold most_common
  rw [sortDescByCount_length, List.length_map]

/-- C5: for every multiset of external classified imports, the rendered
external frequency table lists min(10, distinct external) modules — so
never more than 10 — and whenever the number of distinct external
modules exceeds 10 the overflow line carries exactly distinct-minus-10. -/
theorem c5_external_table_caps (external : List String) :
    (most_common_n 10 external).length = min 10 (dedupFirst external).length
    ∧ ((dedupFirst external).length > 10 →
        ("  ... and " ++ toString ((dedupFirst external).length - 10) ++ " more")
          ∈ externalSection external) := by
  constructor
  · unfold most_common_n
    rw [List.length_take, most_common_length]
  · intro hgt
    have hne : external.isEmpty = false := by
      cases external with
      | nil => exact absurd hgt (by decide)
      | cons a rest => rfl
    unfold externalSection
    rw [hne]
    simp only [Bool.false_eq_true, if_false, gt_iff_lt, hgt, if_true,
      List.mem_cons, List.mem_append]
    tauto

/-- External list with eleven distinct modules for the C5 witness. -/
def extC5 : List String :=
  ["m01", "m02", "m03", "m04", "m05", "m06", "m07", "m08", "m09", "m10", "m11"]

/-- C5 witness at a list of eleven distinct external modules. -/
theorem c5_external_witness :
    (most_common_n 10 extC5).length = min 10 (dedupFirst extC5).length
    ∧ ("  ... and " ++ toString ((dedupFirst extC5).length - 10) ++ " more")
        ∈ externalSection extC5 :=
  ⟨(c5_external_table_caps extC5).1, (c5_external_table_caps extC5).2 (by decide)⟩

/-! ### Claim C8 -/

theorem extractAll_length {fs : Fs} :
    ∀ {files : List String} {perFile : List (List String)},
      extractAll fs files = some perFile → perFile.length = files.length := by
  intro files
  induction files with
  | nil =>
    intro perFile h
    unfold extractAll at h
    injection h with h
    subst h
    rfl
  | cons f rest ih =>
    intro perFile h
    unfold extractAll at h
    cases hx : extract_file_imports fs f with
    | raised => rw [hx] at h; cases h
    | ok l =>
      rw [hx] at h
      cases hr : extractAll fs rest with
      | none => rw [hr] at h; cases h
      | some ls =>
        rw [hr] at h
        simp only [Option.map_some'] at h
        injection h with h
        subst h
        simp [ih hr]

/-- C8: whenever a summary is reported (the chunk extracted at least
one import), the reported average equals total imports divided by the
member file count exactly, and it equals zero exactly when the chunk
has zero files (both sides false there); a zero-file chunk yields zero
total imports — the script then reports no average at all — and the
code formula evaluates to zero on it.  Division is modelled exactly
over the rationals in place of the Python float division. -/
theorem c8_average_per_file (fs : Fs) (files : List String)
    (perFile : List (List String)) (hex : extractAll fs files = some perFile) :
    (perFile.flatten ≠ [] →
        avgOf perFile.flatten.length files
            = (perFile.flatten.length : ℚ) / (files.length : ℚ)
        ∧ (avgOf perFile.flatten.length files = 0 ↔ files.length = 0))
    ∧ (files.length = 0 →
        perFile.flatten = [] ∧ avgOf perFile.flatten.length files = 0) := by
  have hlen := extractAll_length hex
  constructor
  · intro hne
    have hfne : files ≠ [] := by
      intro h0
      subst h0
      have hp0 : perFile = [] := List.length_eq_zero.mp hlen
      subst hp0
      exact hne rfl
    have hemp : files.isEmpty = false := by
      cases files with
      | nil => exact absurd rfl hfne
      | cons a rest => rfl
    constructor
    · unfold avgOf
      rw [hemp]
      simp
    · unfold avgOf
      rw [hemp]
      simp only [Bool.false_eq_true, if_false]
      rw [div_eq_zero_iff]
      have h1 : (perFile.flatten.length : ℚ) ≠ 0 := by
        rw [Nat.cast_ne_zero]
        intro h0
        exact hne (List.length_eq_zero.mp h0)
      have h2 : ((files.length : ℚ)) ≠ 0 := by
        rw [Nat.cast_ne_zero]
        simp [hfne]
      constructor
      · intro hd
        rcases hd with hd | hd
        · exact absurd hd h1
        · exact absurd hd h2
      · intro hf
        exact absurd hf (by simpa using h2)
  · intro h0
    have hf0 : files = [] := List.length_eq_zero.mp h0
    subst hf0
    have hp0 : perFile = [] := List.length_eq_zero.mp hlen
    subst hp0
    exact ⟨rfl, rfl⟩

/-- Snapshot for the C8 witness: one Python file with two imports. -/
def fsC8 : Fs := fun p =>
  if p = "x.py" then
    some (.file { content := "import m\nimport n\n",
                  pyAst := some [.imp ["m"], .imp ["n"]] })
  else none

/-- C8 witness: one file, two imports, average two. -/
theorem c8_average_witness :
    avgOf ([["m", "n"]] : List (List String)).flatten.length ["x.py"]
        = (([["m", "n"]] : List (List String)).flatten.length : ℚ)
            / ((["x.py"] : List String).length : ℚ)
    ∧ (avgOf ([["m", "n"]] : List (List String)).flatten.length ["x.py"] = 0
        ↔ (["x.py"] : List String).length = 0) :=
  (c8_average_per_file fsC8 ["x.py"] [["m", "n"]] (by decide)).1 (by decide)

/-! ### Claim C4 -/

/-- C4: the run exits 1 with a single diagnostic line on the error
stream and an empty standard output when the registry file is missing
(with or without a chunk-id argument), when no chunk id is given and the
registry has no current chunk (unset or empty), or when the requested or
current chunk id is not in the registry; when the chunk resolves and
every member file extracts, the run exits 0 with an empty error stream —
also when zero imports were found, which is reported on standard
output. -/
theorem c4_exit_codes (argv : Option String) (reg : Option ChunksData)
    (fs : Fs) (root : String) (ord : List String → List String)
    (d : ChunksData) (cid : String) (chunk : Chunk)
    (perFile : List (List String)) :
    (reg = none →
        mainRun argv reg fs root ord
          = .finished ⟨1, [], [chunksFileMissingMsg]⟩)
    ∧ (argv = none → reg = some d →
        (d.current_chunk = none ∨ d.current_chunk = some "") →
        mainRun argv reg fs root ord
          = .finished ⟨1, [], ["Error: No current chunk set"]⟩)
    ∧ (argv = some cid → reg = some d → get_chunk d cid = none →
        mainRun argv reg fs root ord
          = .finished ⟨1, [], ["Error: Chunk not found: " ++ cid]⟩)
    ∧ (argv = none → reg = some d → d.current_chunk = some cid → cid ≠ "" →
        get_chunk d cid = none →
        mainRun argv reg fs root ord
          = .finished ⟨1, [], ["Error: Chunk not found: " ++ cid]⟩)
    ∧ (argv = some cid → reg = some d → get_chunk d cid = some chunk →
        extractAll fs chunk.files = some perFile →
        ∃ out, mainRun argv reg fs root ord = .finished out
          ∧ out.exitCode = 0 ∧ out.stderrLines = []
          ∧ (perFile.flatten = [] →
              out.stdoutLines
                = headerLines chunk ++ ["No imports found in chunk files."])) := by
  refine ⟨?_, ?_, ?_, ?_, ?_⟩
  · intro h
    subst h
    cases argv <;> rfl
  · intro ha hr hcc
    subst ha
    subst hr
    rcases hcc with h | h <;> simp [mainRun, resolveChunkId, h, errorOut]
  · intro ha hr hg
    subst ha
    subst hr
    simp [mainRun, resolveChunkId, hg, errorOut]
  · intro ha hr hcc hne hg
    subst ha
    subst hr
    simp [mainRun, resolveChunkId, hcc, hne, hg, errorOut]
  · intro ha hr hg hex
    subst ha
    subst hr
    have hrun : mainRun (some cid) (some d) fs root ord
        = runReport d cid chunk fs root ord := by
      simp [mainRun, resolveChunkId, hg]
    rw [hrun]
    unfold runReport
    rw [hex]
    dsimp only
    by_cases hfl : perFile.flatten.isEmpty
    · rw [if_pos hfl]
      exact ⟨_, rfl, rfl, rfl, fun _ => rfl⟩
    · rw [if_neg hfl]
      exact ⟨_, rfl, rfl, rfl, fun h0 => absurd (by rw [h0]; rfl) hfl⟩

/-- Registry for the C4 witness. -/
def regC4 : ChunksData :=
  { chunks := [⟨"c1", "C1", "pending", ["x.py"]⟩], current_chunk := some "c1" }

/-- Snapshot for the C4 witness: the chunk file extracts two imports. -/
def fsC4 : Fs := fun p =>
  if p = "x.py" then
    some (.file { content := "import m\nimport n\n",
                  pyAst := some [.imp ["m"], .imp ["n"]] })
  else none

/-- C4 witness: the missing-registry run and a successful run at
concrete inputs. -/
theorem c4_exit_codes_witness :
    (mainRun none none (fun _ => none) "/p" id
        = .finished ⟨1, [], [chunksFileMissingMsg]⟩)
    ∧ (∃ out, mainRun (some "c1") (some regC4) fsC4 "/p" id = .finished out
        ∧ out.exitCode = 0 ∧ out.stderrLines = []
        ∧ (([["m", "n"]] : List (List String)).flatten = [] →
            out.stdoutLines = headerLines ⟨"c1", "C1", "pending", ["x.py"]⟩
              ++ ["No imports found in chunk files."])) :=
  ⟨(c4_exit_codes none none (fun _ => none) "/p" id ⟨[], none⟩ ""
      ⟨"", "", "", []⟩ []).1 rfl,
   (c4_exit_codes (some "c1") (some regC4) fsC4 "/p" id regC4 "c1"
      ⟨"c1", "C1", "pending", ["x.py"]⟩ [["m", "n"]]).2.2.2.2 rfl rfl
      (by decide) (by decide)⟩

/-! ### Claim C6 -/

/-- Registry for the C6 counterexample: the analyzed chunk a, and two
chunks b and c owning the files the imports of a resolve to. -/
def regC6 : ChunksData :=
  { chunks := [⟨"a", "A", "pending", ["x.py"]⟩, ⟨"b", "B", "pending", ["m.py"]⟩,
               ⟨"c", "C", "pending", ["n.py"]⟩],
    current_chunk := some "a" }

/-- Snapshot for the C6 counterexample: x.py imports m and n, whose
candidate files m.py and n.py exist and belong to chunks b and c. -/
def fsC6 : Fs := fun p =>
  if p = "x.py" then
    some (.file { content := "import m\nimport n\n",
                  pyAst := some [.imp ["m"], .imp ["n"]] })
  else if p = "m.py" then some (.file { content := "", pyAst := some [] })
  else if p = "n.py" then some (.file { content := "", pyAst := some [] })
  else none

/-- C6 counterexample: on a fixed registry and snapshot with two
cross-chunk dependencies, two set-iteration orders that are both
permutations of the membership list give different bytes — the claimed
byte-identity across process invocations fails, because the Python set
iteration order of string elements varies with the per-process hash
seed. -/
theorem c6_counterexample :
    crossChunkDeps regC6 "a" fsC6 [["m", "n"]] = ["b", "c"]
    ∧ (List.reverse ["b", "c"]).Perm ["b", "c"]
    ∧ mainRun (some "a") (some regC6) fsC6 "/proj" id
        ≠ mainRun (some "a") (some regC6) fsC6 "/proj" List.reverse := by
  refine ⟨by decide, by decide, by decide⟩

theorem perm_eq_of_short {l2 l : List String} (hp : l2.Perm l)
    (hl : l.length ≤ 1) : l2 = l := by
  cases l with
  | nil => exact List.perm_nil.mp hp
  | cons a rest =>
    cases rest with
    | nil => exact List.perm_singleton.mp hp
    | cons b r2 => simp at hl

/-- C6 amended: the report is a deterministic function of the registry,
the snapshot and the set-iteration order; any two iteration orders that
permute the computed cross-chunk membership list give byte-identical
output whenever that list has at most one element — only the ordering of
the cross-chunk dependency listing can differ between process
invocations. -/
theorem c6_deterministic_up_to_set_order (argv : Option String)
    (reg : Option ChunksData) (fs : Fs) (root : String)
    (o1 o2 : List String → List String)
    (h1 : ∀ l, (o1 l).Perm l) (h2 : ∀ l, (o2 l).Perm l)
    (hshort : ∀ d cid chunk perFile, reg = some d →
        get_chunk d cid = some chunk →
        extractAll fs chunk.files = some perFile →
        (crossChunkDeps d cid fs perFile).length ≤ 1) :
    mainRun argv reg fs root o1 = mainRun argv reg fs root o2 := by
  unfold mainRun
  cases hres : resolveChunkId argv reg with
  | error out => rfl
  | ok chunkId =>
    dsimp only
    cases reg with
    | none => rfl
    | some d =>
      dsimp only
      cases hg : get_chunk d chunkId with
      | none => rfl
      | some chunk =>
        dsimp only
        unfold runReport
        cases hex : extractAll fs chunk.files with
        | none => rfl
        | some perFile =>
          dsimp only
          by_cases hfl : perFile.flatten.isEmpty
          · rw [if_pos hfl, if_pos hfl]
          · rw [if_neg hfl, if_neg hfl]
            have hlen := hshort d chunkId chunk perFile rfl hg hex
            rw [perm_eq_of_short (h1 _) hlen, perm_eq_of_short (h2 _) hlen]

/-- Registry for the C6 witness: a single chunk with no cross-chunk
dependencies. -/
def regC6w : ChunksData :=
  { chunks := [⟨"w", "W", "pending", ["x.py"]⟩], current_chunk := some "w" }

/-- Snapshot for the C6 witness. -/
def fsC6w : Fs := fun p =>
  if p = "x.py" then
    some (.file { content := "import m\n", pyAst := some [.imp ["m"]] })
  else none

/-- C6 amended witness: with no cross-chunk dependency the identity and
the reversing iteration orders give the same bytes. -/
theorem c6_deterministic_witness :
    mainRun (some "w") (some regC6w) fsC6w "/p" id
      = mainRun (some "w") (some regC6w) fsC6w "/p" List.reverse :=
  c6_deterministic_up_to_set_order (some "w") (some regC6w) fsC6w "/p"
    id List.reverse (fun l => List.Perm.refl l) (fun l => List.reverse_perm l)
    (by
      intro d cid chunk perFile hd hg hex
      injection hd with hd
      subst hd
      by_cases hc : cid = "w"
      · subst hc
        rw [show get_chunk regC6w "w"
            = some ⟨"w", "W", "pending", ["x.py"]⟩ from by decide] at hg
        injection hg with hg
        subst hg
        rw [show extractAll fsC6w ["x.py"] = some [["m"]] from by decide] at hex
        injection hex with hex
        subst hex
        decide
      · have hnone : get_chunk regC6w cid = none := by
          unfold get_chunk regC6w
          rw [List.find?_cons_of_neg, List.find?_nil]
          intro h
          exact hc (beq_iff_eq.mp h).symm
        rw [hnone] at hg
        cases hg)

/-! ### Claim C9

The single-import pattern is anchored at line starts; the scan below is
shown to produce nothing on the two-block file because no line-start
suffix of its content begins a match, and re.search of the block pattern
stops at the first block, never reaching the second. -/

/-- The suffixes of the content that begin just after a newline: the
candidate caret positions of the MULTILINE scan besides the string
start. -/
def lineStartSuffixes : List Char → List (List Char)
  | [] => []
  | c :: rest =>
    if c = '\n' then rest :: lineStartSuffixes rest
    else lineStartSuffixes rest

theorem lSS_cons_ne {c : Char} (rest : List Char) (h : ¬ c = '\n') :
    lineStartSuffixes (c :: rest) = lineStartSuffixes rest := by
  simp [lineStartSuffixes, h]

theorem lSS_cons_nl (rest : List Char) :
    lineStartSuffixes ('\n' :: rest) = rest :: lineStartSuffixes rest := by
  simp [lineStartSuffixes]

theorem lSS_append_noNl (q X : List Char) (hq : ∀ c ∈ q, ¬ c = '\n') :
    lineStartSuffixes (q ++ X) = lineStartSuffixes X := by
  induction q with
  | nil => rfl
  | cons c q2 ih =>
    rw [List.cons_append, lSS_cons_ne _ (hq c (List.mem_cons_self c q2))]
    exact ih (fun c2 h2 => hq c2 (List.mem_cons_of_mem c h2))

theorem mem_lSS_of_suffix :
    ∀ {orig rest : List Char}, ('\n' :: rest) <:+ orig →
      rest ∈ lineStartSuffixes orig := by
  intro orig
  induction orig with
  | nil =>
    intro rest h
    simp at h
  | cons o orig2 ih =>
    intro rest h
    rcases List.suffix_cons_iff.mp h with he | hs
    · injection he with h1 h2
      subst h1
      subst h2
      rw [lSS_cons_nl]
      exact List.mem_cons_self _ _
    · have hmem := ih hs
      by_cases ho : o = '\n'
      · subst ho
        rw [lSS_cons_nl]
        exact List.mem_cons_of_mem _ hmem
      · rw [lSS_cons_ne _ ho]
        exact hmem

/-- When the anchored fragment fails at the string start and at every
line start, the finditer scan produces nothing — whatever the fuel,
since a scan that finds nothing consumes one character per step. -/
theorem scanAux_nil_of_linestarts (orig : List Char)
    (H0 : trySingle orig = none)
    (H : ∀ s ∈ lineStartSuffixes orig, trySingle s = none) :
    ∀ (f : Nat) (cs : List Char) (b : Bool), cs <:+ orig →
      (b = true → cs = orig ∨ cs ∈ lineStartSuffixes orig) →
      scanAux f cs b = [] := by
  intro f
  induction f with
  | zero => intro cs b _ _; rfl
  | succ f ih =>
    intro cs b hsuf hline
    cases cs with
    | nil => rfl
    | cons c rest =>
      have hrest : rest <:+ orig := (List.suffix_cons c rest).trans hsuf
      have hlineRest : (c == '\n') = true →
          rest = orig ∨ rest ∈ lineStartSuffixes orig := by
        intro hb
        have hc : c = '\n' := beq_iff_eq.mp hb
        subst hc
        exact Or.inr (mem_lSS_of_suffix hsuf)
      cases b with
      | false =>
        show scanAux f rest (c == '\n') = []
        exact ih rest (c == '\n') hrest hlineRest
      | true =>
        have ht : trySingle (c :: rest) = none := by
          rcases hline rfl with h | h
          · rw [h]
            exact H0
          · exact H _ h
        show (match trySingle (c :: rest) with
              | some (cap, rem) => cap :: scanAux f rem false
              | none => scanAux f rest (c == '\n')) = []
        rw [ht]
        exact ih rest (c == '\n') hrest hlineRest

/-- The character list of the literal import. -/
theorem importChars : "import".toList = ['i', 'm', 'p', 'o', 'r', 't'] := rfl

/-- The anchored fragment fails at any position whose first character is
not whitespace and does not begin the literal import. -/
theorem trySingle_none_of_first (c : Char) (rest : List Char)
    (h1 : isWs c = false)
    (h2 : ("import".toList.isPrefixOf (c :: rest)) = false) :
    trySingle (c :: rest) = none := by
  unfold trySingle
  have hd : dropWsL (c :: rest) = c :: rest := by
    simp [dropWsL, List.dropWhile_cons, h1]
  rw [hd]
  unfold stripPre
  rw [h2]
  simp

theorem trySingle_none_paren (rest : List Char) :
    trySingle (')' :: rest) = none :=
  trySingle_none_of_first ')' rest (by decide)
    (by simp [importChars, List.isPrefixOf])

theorem trySingle_none_tabquote (rest : List Char) :
    trySingle ('\t' :: '"' :: rest) = none := by
  unfold trySingle
  have hd : dropWsL ('\t' :: '"' :: rest) = '"' :: rest := by
    simp [dropWsL, List.dropWhile_cons, isWs]
  rw [hd]
  unfold stripPre
  rw [show ("import".toList.isPrefixOf ('"' :: rest)) = false from by
    simp [importChars, List.isPrefixOf]]
  simp

/-- The anchored fragment fails where the literal import is followed by
a space and an opening parenthesis — the quote the pattern demands is
not there. -/
theorem trySingle_none_importParen (rest : List Char) :
    trySingle ('i' :: 'm' :: 'p' :: 'o' :: 'r' :: 't' :: ' ' :: '(' :: rest)
      = none := by
  unfold trySingle
  have hd : dropWsL ('i' :: 'm' :: 'p' :: 'o' :: 'r' :: 't' :: ' ' :: '(' :: rest)
      = 'i' :: 'm' :: 'p' :: 'o' :: 'r' :: 't' :: ' ' :: '(' :: rest := by
    simp [dropWsL, List.dropWhile_cons, isWs]
  rw [hd]
  unfold stripPre
  rw [show ("import".toList.isPrefixOf
      ('i' :: 'm' :: 'p' :: 'o' :: 'r' :: 't' :: ' ' :: '(' :: rest)) = true from by
    simp [importChars, List.isPrefixOf]]
  simp only [if_true, importChars, List.length_cons, List.length_nil]
  unfold ws1
  simp only [List.drop_succ_cons, List.drop_zero]
  rw [show isWs ' ' = true from by decide]
  simp only [if_true]
  have hd2 : dropWsL ('(' :: rest) = '(' :: rest := by
    simp [dropWsL, List.dropWhile_cons, isWs]
  rw [hd2]
  unfold expectChar
  simp

/-- One line of a rendered import block: a tab, the quoted path, a
newline. -/
def blockLine (p : List Char) : List Char := '\t' :: '"' :: (p ++ ['"', '\n'])

/-- The lines of a rendered import block, one quoted path per line. -/
def renderBlockLines : List (List Char) → List Char
  | [] => []
  | p :: ps => blockLine p ++ renderBlockLines ps

/-- A rendered import block: the import keyword, an opening parenthesis,
one line per quoted path, a closing parenthesis. -/
def renderBlock (ps : List (List Char)) : List Char :=
  'i' :: 'm' :: 'p' :: 'o' :: 'r' :: 't' :: ' ' :: '(' :: '\n'
    :: (renderBlockLines ps ++ [')', '\n'])

/-- A sequence of rendered import blocks. -/
def renderBlocks : List (List (List Char)) → List Char
  | [] => []
  | qs :: rest => renderBlock qs ++ renderBlocks rest

/-- A Go file with arbitrary preceding content, a first import block
with entry paths ps, arbitrary content between the blocks, and any
number of later import blocks with entry paths qss. -/
def mkGoFile (pre : List Char) (ps : List (List Char)) (mid : List Char)
    (qss : List (List (List Char))) : String :=
  String.mk (pre ++ (renderBlock ps ++ (mid ++ renderBlocks qss)))

/-- A sample rendering, for the record. -/
theorem mkGoFile_rendered :
    mkGoFile "package main\n".toList ["aaa/bbb".toList] "\nvar x = 1\n".toList
        [["ccc/ddd".toList]]
      = "package main\nimport (\n\t\"aaa/bbb\"\n)\n\nvar x = 1\nimport (\n\t\"ccc/ddd\"\n)\n" := rfl

/-! Generic helpers for the general second-block theorem. -/

theorem lss_append (xs ys : List Char) :
    lineStartSuffixes (xs ++ ys)
      = (lineStartSuffixes xs).map (· ++ ys) ++ lineStartSuffixes ys := by
  induction xs with
  | nil => simp [lineStartSuffixes]
  | cons c xs2 ih =>
    by_cases hc : c = '\n'
    · subst hc
      rw [List.cons_append, lSS_cons_nl, lSS_cons_nl]
      simp [ih]
    · rw [List.cons_append, lSS_cons_ne _ hc, lSS_cons_ne _ hc, ih]

theorem mem_lss_suffix :
    ∀ {xs s : List Char}, s ∈ lineStartSuffixes xs → s <:+ xs := by
  intro xs
  induction xs with
  | nil => intro s hs; simp [lineStartSuffixes] at hs
  | cons c xs2 ih =>
    intro s hs
    by_cases hc : c = '\n'
    · subst hc
      rw [lSS_cons_nl] at hs
      rcases List.mem_cons.mp hs with rfl | hs2
      · exact List.suffix_cons _ _
      · exact (ih hs2).trans (List.suffix_cons _ _)
    · rw [lSS_cons_ne _ hc] at hs
      exact (ih hs).trans (List.suffix_cons _ _)

theorem dropWsL_append (xs : List Char) (c : Char) (zs : List Char)
    (hc : isWs c = false) :
    dropWsL (xs ++ c :: zs)
      = (xs.dropWhile (fun x => isWs x)) ++ c :: zs := by
  induction xs with
  | nil => simp [dropWsL, List.dropWhile_cons, hc]
  | cons x xs2 ih =>
    by_cases hx : isWs x
    · simp only [List.cons_append, dropWsL, List.dropWhile_cons, hx, if_true]
      exact ih
    · simp [dropWsL, List.dropWhile_cons, hx]

theorem dropWhile_head_false {p : Char → Bool} :
    ∀ {xs : List Char} {c : Char} {t : List Char},
      List.dropWhile p xs = c :: t → p c = false := by
  intro xs
  induction xs with
  | nil => intro c t h; simp at h
  | cons x xs2 ih =>
    intro c t h
    rw [List.dropWhile_cons] at h
    by_cases hx : p x = true
    · rw [if_pos hx] at h
      exact ih h
    · rw [if_neg hx] at h
      injection h with h1 _
      subst h1
      cases hpx : p x with
      | false => rfl
      | true => exact absurd hpx hx

theorem stripPre_some {p cs r : List Char} (h : stripPre p cs = some r) :
    r = cs.drop p.length := by
  unfold stripPre at h
  split at h
  · injection h with h
    exact h.symm
  · cases h

theorem ws1_some {cs r : List Char} (h : ws1 cs = some r) :
    ∃ c rest, cs = c :: rest ∧ isWs c = true ∧ r = dropWsL rest := by
  cases cs with
  | nil => simp [ws1] at h
  | cons c rest =>
    simp only [ws1] at h
    by_cases hw : isWs c = true
    · rw [if_pos hw] at h
      injection h with h
      exact ⟨c, rest, rfl, hw, h.symm⟩
    · rw [if_neg hw] at h
      cases h

theorem upToParen_append (cs rest : List Char) (h : ∀ c ∈ cs, c ≠ ')') :
    upToParen (cs ++ ')' :: rest) = some cs := by
  induction cs with
  | nil => simp [upToParen]
  | cons c cs2 ih =>
    rw [List.cons_append]
    unfold upToParen
    rw [if_neg (h c (List.mem_cons_self c cs2))]
    rw [ih (fun x hx => h x (List.mem_cons_of_mem c hx))]
    rfl

/-- The anchored single-import fragment fails on any text that contains
no double quote at all: the pattern demands a literal quote. -/
theorem trySingle_none_noquote (s : List Char) (h : ∀ c ∈ s, c ≠ '"') :
    trySingle s = none := by
  unfold trySingle
  have hd : ∀ c ∈ dropWsL s, c ≠ '"' :=
    fun c hc => h c ((List.dropWhile_sublist _).subset hc)
  cases hpre : stripPre "import".toList (dropWsL s) with
  | none => rfl
  | some r1 =>
    dsimp only
    have hr1 : ∀ c ∈ r1, c ≠ '"' := by
      rw [stripPre_some hpre]
      exact fun c hc => hd c (List.drop_subset _ _ hc)
    cases hws : ws1 r1 with
    | none => rfl
    | some r2 =>
      dsimp only
      have hr2 : ∀ c ∈ r2, c ≠ '"' := by
        obtain ⟨c0, rest0, hr1eq, _, hr2eq⟩ := ws1_some hws
        subst hr2eq
        intro c hc
        refine hr1 c ?_
        rw [hr1eq]
        exact List.mem_cons_of_mem _ ((List.dropWhile_sublist _).subset hc)
      cases r2 with
      | nil => rfl
      | cons h0 t0 =>
        have hh0 : ¬ h0 = '"' := hr2 h0 (List.mem_cons_self _ _)
        simp [expectChar, hh0]

/-- Matching a literal against itself followed by anything succeeds and
leaves the remainder. -/
theorem stripPre_self_append (p cs : List Char) : stripPre p (p ++ cs) = some cs := by
  unfold stripPre
  rw [if_pos (List.isPrefixOf_iff_prefix.mpr (List.prefix_append p cs))]
  rw [List.drop_left]

/-- dropWhile by whitespace is idempotent. -/
theorem dropWhile_ws_idem (l : List Char) :
    List.dropWhile (fun x => isWs x) (List.dropWhile (fun x => isWs x) l)
      = List.dropWhile (fun x => isWs x) l := by
  induction l with
  | nil => rfl
  | cons x l2 ih =>
    cases hx : isWs x with
    | true =>
      rw [List.dropWhile_cons, if_pos (by simp [hx])]
      exact ih
    | false =>
      rw [List.dropWhile_cons, if_neg (by simp [hx]),
        List.dropWhile_cons, if_neg (by simp [hx])]

/-- Expecting a quote fails on a quote-free region followed by a
non-quote character. -/
theorem expectChar_quote_none (v : List Char) (c : Char) (zs : List Char)
    (hv : ∀ x ∈ v, ¬ x = '"') (hc : ¬ c = '"') :
    expectChar '"' (v ++ c :: zs) = none := by
  cases v with
  | nil => simp [expectChar, hc]
  | cons x v2 => simp [expectChar, hv x (List.mem_cons_self x v2)]

/-- The anchored single-import fragment fails at every position of a
quote-free region that is followed by the import-parenthesis opener of a
block: the match cannot reach a quote, because the non-whitespace
characters of the opener block the way.  The boundary case of the
literal import spanning into the opener is impossible, since no proper
suffix of import is one of its prefixes. -/
theorem trySingle_none_before_block (s1 rest : List Char)
    (h : ∀ c ∈ s1, ¬ c = '"') :
    trySingle (s1 ++ ('i' :: 'm' :: 'p' :: 'o' :: 'r' :: 't' :: ' ' :: '('
      :: rest)) = none := by
  have hstep : trySingle (s1 ++ ('i' :: 'm' :: 'p' :: 'o' :: 'r' :: 't' :: ' '
      :: '(' :: rest))
      = trySingle ((s1.dropWhile (fun x => isWs x)) ++ ('i' :: 'm' :: 'p'
          :: 'o' :: 'r' :: 't' :: ' ' :: '(' :: rest)) := by
    unfold trySingle
    rw [dropWsL_append s1 'i' _ (by decide),
      dropWsL_append (s1.dropWhile (fun x => isWs x)) 'i' _ (by decide),
      dropWhile_ws_idem]
  rw [hstep]
  have h1 : ∀ c ∈ s1.dropWhile (fun x => isWs x), ¬ c = '"' :=
    fun c hc => h c ((List.dropWhile_sublist _).subset hc)
  cases hs1 : s1.dropWhile (fun x => isWs x) with
  | nil =>
    simp only [List.nil_append]
    exact trySingle_none_importParen rest
  | cons a t1 =>
    have ha := dropWhile_head_false hs1
    rw [hs1] at h1
    cases t1 with
    | nil =>
      simp [trySingle, dropWsL, List.dropWhile_cons, ha, stripPre, importChars,
        List.isPrefixOf]
    | cons b t2 =>
      cases t2 with
      | nil =>
        simp [trySingle, dropWsL, List.dropWhile_cons, ha, stripPre, importChars,
          List.isPrefixOf]
      | cons c2 t3 =>
        cases t3 with
        | nil =>
          simp [trySingle, dropWsL, List.dropWhile_cons, ha, stripPre,
            importChars, List.isPrefixOf]
        | cons d t4 =>
          cases t4 with
          | nil =>
            simp [trySingle, dropWsL, List.dropWhile_cons, ha, stripPre,
              importChars, List.isPrefixOf]
          | cons e t5 =>
            cases t5 with
            | nil =>
              simp [trySingle, dropWsL, List.dropWhile_cons, ha, stripPre,
                importChars, List.isPrefixOf]
            | cons f s3 =>
              by_cases hpref : ("import".toList.isPrefixOf
                  ((a :: b :: c2 :: d :: e :: f :: s3)
                    ++ ('i' :: 'm' :: 'p' :: 'o' :: 'r' :: 't' :: ' ' :: '('
                      :: rest))) = true
              · rw [importChars] at hpref
                simp only [List.cons_append, List.isPrefixOf, Bool.and_eq_true,
                  beq_iff_eq] at hpref
                obtain ⟨ha1, hb1, hc1, hd1, he1, hf1, -⟩ := hpref
                subst ha1; subst hb1; subst hc1; subst hd1; subst he1; subst hf1
                unfold trySingle
                rw [show dropWsL (('i' :: 'm' :: 'p' :: 'o' :: 'r' :: 't' :: s3)
                    ++ ('i' :: 'm' :: 'p' :: 'o' :: 'r' :: 't' :: ' ' :: '('
                      :: rest))
                    = ('i' :: 'm' :: 'p' :: 'o' :: 'r' :: 't' :: s3)
                      ++ ('i' :: 'm' :: 'p' :: 'o' :: 'r' :: 't' :: ' ' :: '('
                        :: rest) from by
                  simp [dropWsL, List.dropWhile_cons, isWs]]
                rw [show stripPre "import".toList
                    (('i' :: 'm' :: 'p' :: 'o' :: 'r' :: 't' :: s3)
                      ++ ('i' :: 'm' :: 'p' :: 'o' :: 'r' :: 't' :: ' ' :: '('
                        :: rest))
                    = some (s3 ++ ('i' :: 'm' :: 'p' :: 'o' :: 'r' :: 't'
                        :: ' ' :: '(' :: rest)) from stripPre_self_append _ _]
                dsimp only
                cases hws : ws1 (s3 ++ ('i' :: 'm' :: 'p' :: 'o' :: 'r' :: 't'
                    :: ' ' :: '(' :: rest)) with
                | none => rfl
                | some r2 =>
                  obtain ⟨c0, rest0, heq, hws0, hr2⟩ := ws1_some hws
                  cases s3 with
                  | nil =>
                    exfalso
                    simp only [List.nil_append] at heq
                    injection heq with h1x _
                    rw [← h1x] at hws0
                    simp [isWs] at hws0
                  | cons g s4 =>
                    simp only [List.cons_append] at heq
                    injection heq with h1x h2x
                    subst h1x
                    subst h2x
                    dsimp only
                    rw [hr2, show dropWsL (s4 ++ ('i' :: 'm' :: 'p' :: 'o'
                        :: 'r' :: 't' :: ' ' :: '(' :: rest))
                        = (s4.dropWhile (fun x => isWs x))
                          ++ ('i' :: 'm' :: 'p' :: 'o' :: 'r' :: 't' :: ' '
                            :: '(' :: rest) from
                      dropWsL_append s4 'i' _ (by decide)]
                    have hs4 : ∀ x ∈ s4.dropWhile (fun x => isWs x),
                        ¬ x = '"' := by
                      intro x hx
                      refine h1 x ?_
                      have hx2 : x ∈ s4 := (List.dropWhile_sublist _).subset hx
                      simp [hx2]
                    rw [expectChar_quote_none _ 'i' _ hs4 (by decide)]
              · have hpf : ("import".toList.isPrefixOf
                    ((a :: b :: c2 :: d :: e :: f :: s3)
                      ++ ('i' :: 'm' :: 'p' :: 'o' :: 'r' :: 't' :: ' ' :: '('
                        :: rest))) = false := by
                  cases hh : ("import".toList.isPrefixOf
                      ((a :: b :: c2 :: d :: e :: f :: s3)
                        ++ ('i' :: 'm' :: 'p' :: 'o' :: 'r' :: 't' :: ' '
                          :: '(' :: rest))) with
                  | false => rfl
                  | true => exact absurd hh hpref
                exact trySingle_none_of_first a _ ha hpf

/-- Line starts inside the rendered line list of a block followed by the
closing parenthesis: every such position begins with a tab-quote line, or
with the closing parenthesis, or is the position right after the final
newline, and the anchored single-import fragment fails at all of them. -/
theorem trySingle_none_lss_lines (T : List Char) (hT : trySingle T = none) :
    ∀ (ps : List (List Char)), (∀ q ∈ ps, ∀ c ∈ q, ¬ c = '\n') →
      ∀ u ∈ lineStartSuffixes (renderBlockLines ps ++ [')', '\n']),
        trySingle (u ++ T) = none := by
  intro ps
  induction ps with
  | nil =>
    intro _ u hu
    simp only [renderBlockLines, List.nil_append] at hu
    rw [lSS_cons_ne _ (by decide), lSS_cons_nl] at hu
    simp only [lineStartSuffixes] at hu
    rw [List.mem_singleton] at hu
    subst hu
    exact hT
  | cons p more ih =>
    intro hps u hu
    have hsplit : renderBlockLines (p :: more) ++ [')', '\n']
        = ('\t' :: '"' :: (p ++ ['"']))
          ++ ('\n' :: (renderBlockLines more ++ [')', '\n'])) := by
      simp [renderBlockLines, blockLine, List.append_assoc]
    have hnoNl : ∀ c ∈ '\t' :: '"' :: (p ++ ['"']), ¬ c = '\n' := by
      intro c hc
      rcases List.mem_cons.mp hc with rfl | hc2
      · decide
      rcases List.mem_cons.mp hc2 with rfl | hc3
      · decide
      rcases List.mem_append.mp hc3 with hc4 | hc5
      · exact hps p (List.mem_cons_self _ _) c hc4
      · rcases List.mem_cons.mp hc5 with rfl | hc6
        · decide
        · simp at hc6
    rw [hsplit, lSS_append_noNl _ _ hnoNl, lSS_cons_nl] at hu
    rcases List.mem_cons.mp hu with rfl | hu2
    · cases more with
      | nil => exact trySingle_none_paren ('\n' :: T)
      | cons q more2 => exact trySingle_none_tabquote _
    · exact ih (fun p2 h2 => hps p2 (List.mem_cons_of_mem _ h2)) u hu2

/-- Line starts inside a rendered block: the fragment fails at every one
of them, provided it also fails on the continuation that follows the
block. -/
theorem trySingle_none_lss_renderBlock (ps : List (List Char)) (T : List Char)
    (hps : ∀ q ∈ ps, ∀ c ∈ q, ¬ c = '\n') (hT : trySingle T = none) :
    ∀ u ∈ lineStartSuffixes (renderBlock ps), trySingle (u ++ T) = none := by
  intro u hu
  have hform : renderBlock ps
      = ['i', 'm', 'p', 'o', 'r', 't', ' ', '(']
        ++ ('\n' :: (renderBlockLines ps ++ [')', '\n'])) := rfl
  rw [hform, lSS_append_noNl _ _ (by decide), lSS_cons_nl] at hu
  rcases List.mem_cons.mp hu with rfl | hu2
  · cases ps with
    | nil => exact trySingle_none_paren ('\n' :: T)
    | cons q more2 => exact trySingle_none_tabquote _
  · exact trySingle_none_lss_lines T hT ps hps u hu2

/-- The fragment fails on any quote-free region followed by a run of
rendered blocks. -/
theorem trySingle_none_thenBlocks (v : List Char)
    (qss : List (List (List Char))) (hv : ∀ c ∈ v, ¬ c = '"') :
    trySingle (v ++ renderBlocks qss) = none := by
  cases qss with
  | nil =>
    rw [show renderBlocks [] = [] from rfl, List.append_nil]
    exact trySingle_none_noquote v hv
  | cons q rest =>
    have hform : v ++ renderBlocks (q :: rest)
        = v ++ ('i' :: 'm' :: 'p' :: 'o' :: 'r' :: 't' :: ' ' :: '('
            :: (('\n' :: (renderBlockLines q ++ [')', '\n']))
              ++ renderBlocks rest)) := by
      simp [renderBlocks, renderBlock, List.append_assoc]
    rw [hform]
    exact trySingle_none_before_block v _ hv

/-- The fragment fails at every line start of a run of rendered blocks. -/
theorem trySingle_none_lss_blocks (qss : List (List (List Char)))
    (hqss : ∀ qs ∈ qss, ∀ q ∈ qs, ∀ c ∈ q, ¬ c = '\n') :
    ∀ u ∈ lineStartSuffixes (renderBlocks qss), trySingle u = none := by
  induction qss with
  | nil =>
    intro u hu
    simp [renderBlocks, lineStartSuffixes] at hu
  | cons q rest ih =>
    intro u hu
    rw [show renderBlocks (q :: rest) = renderBlock q ++ renderBlocks rest
        from rfl, lss_append] at hu
    rcases List.mem_append.mp hu with h1 | h2
    · obtain ⟨w, hw, rfl⟩ := List.mem_map.mp h1
      exact trySingle_none_lss_renderBlock q (renderBlocks rest)
        (hqss q (List.mem_cons_self _ _))
        (trySingle_none_thenBlocks [] rest (by simp)) w hw
    · exact ih (fun qs h => hqss qs (List.mem_cons_of_mem _ h)) u h2

/-- On the rendered Go file the finditer scan of the single-import
pattern produces no capture at all: the anchored fragment fails at the
string start and at every line start of the file. -/
theorem scanSingle_mkGoFile_nil (pre mid : List Char) (ps : List (List Char))
    (qss : List (List (List Char)))
    (hpre : ∀ c ∈ pre, ¬ c = '"')
    (hmid : ∀ c ∈ mid, ¬ c = '"')
    (hps : ∀ q ∈ ps, ∀ c ∈ q, ¬ c = '\n')
    (hqss : ∀ qs ∈ qss, ∀ q ∈ qs, ∀ c ∈ q, ¬ c = '\n') :
    scanSingle (pre ++ (renderBlock ps ++ (mid ++ renderBlocks qss))) = [] := by
  have hT : trySingle (mid ++ renderBlocks qss) = none :=
    trySingle_none_thenBlocks mid qss hmid
  have H0 : trySingle (pre ++ (renderBlock ps ++ (mid ++ renderBlocks qss)))
      = none := by
    have hform : pre ++ (renderBlock ps ++ (mid ++ renderBlocks qss))
        = pre ++ ('i' :: 'm' :: 'p' :: 'o' :: 'r' :: 't' :: ' ' :: '('
            :: (('\n' :: (renderBlockLines ps ++ [')', '\n']))
              ++ (mid ++ renderBlocks qss))) := by
      simp [renderBlock, List.append_assoc]
    rw [hform]
    exact trySingle_none_before_block pre _ hpre
  have H : ∀ s ∈ lineStartSuffixes
      (pre ++ (renderBlock ps ++ (mid ++ renderBlocks qss))),
      trySingle s = none := by
    intro s hs
    rw [lss_append] at hs
    rcases List.mem_append.mp hs with h1 | h2
    · obtain ⟨w, hw, rfl⟩ := List.mem_map.mp h1
      have hwq : ∀ c ∈ w, ¬ c = '"' :=
        fun c hc => hpre c ((mem_lss_suffix hw).sublist.subset hc)
      have hform : w ++ (renderBlock ps ++ (mid ++ renderBlocks qss))
          = w ++ ('i' :: 'm' :: 'p' :: 'o' :: 'r' :: 't' :: ' ' :: '('
              :: (('\n' :: (renderBlockLines ps ++ [')', '\n']))
                ++ (mid ++ renderBlocks qss))) := by
        simp [renderBlock, List.append_assoc]
      rw [hform]
      exact trySingle_none_before_block w _ hwq
    · rw [lss_append] at h2
      rcases List.mem_append.mp h2 with h3 | h4
      · obtain ⟨w, hw, rfl⟩ := List.mem_map.mp h3
        exact trySingle_none_lss_renderBlock ps _ hps hT w hw
      · rw [lss_append] at h4
        rcases List.mem_append.mp h4 with h5 | h6
        · obtain ⟨w, hw, rfl⟩ := List.mem_map.mp h5
          have hwq : ∀ c ∈ w, ¬ c = '"' :=
            fun c hc => hmid c ((mem_lss_suffix hw).sublist.subset hc)
          exact trySingle_none_thenBlocks w qss hwq
        · exact trySingle_none_lss_blocks qss hqss s h6
  exact scanAux_nil_of_linestarts _ H0 H _ _ true List.suffix_rfl
    (fun _ => Or.inl rfl)

/-- Expecting an opening parenthesis fails on a parenthesis-free region
followed by a non-parenthesis character. -/
theorem expectChar_paren_none (v : List Char) (c : Char) (zs : List Char)
    (hv : ∀ x ∈ v, ¬ x = '(') (hc : ¬ c = '(') :
    expectChar '(' (v ++ c :: zs) = none := by
  cases v with
  | nil => simp [expectChar, hc]
  | cons x v2 => simp [expectChar, hv x (List.mem_cons_self x v2)]

/-- The unanchored block fragment import \s* \( fails at every position
of a nonempty parenthesis-free region that is followed by the opener of
a rendered block: the literal cannot span the boundary, and after a
literal match inside the region the expected parenthesis is never
there. -/
theorem tryBlockAt_none_before (s rest : List Char)
    (hs : ∀ c ∈ s, ¬ c = '(') (hne : s ≠ []) :
    tryBlockAt (s ++ ('i' :: 'm' :: 'p' :: 'o' :: 'r' :: 't' :: ' ' :: '('
      :: rest)) = none := by
  cases s with
  | nil => exact absurd rfl hne
  | cons a t1 =>
    have hmem : ∀ x ∈ a :: t1, ¬ x = '(' := hs
    cases t1 with
    | nil =>
      simp [tryBlockAt, stripPre, importChars, List.isPrefixOf]
    | cons b t2 =>
      cases t2 with
      | nil =>
        simp [tryBlockAt, stripPre, importChars, List.isPrefixOf]
      | cons c2 t3 =>
        cases t3 with
        | nil =>
          simp [tryBlockAt, stripPre, importChars, List.isPrefixOf]
        | cons d t4 =>
          cases t4 with
          | nil =>
            simp [tryBlockAt, stripPre, importChars, List.isPrefixOf]
          | cons e t5 =>
            cases t5 with
            | nil =>
              simp [tryBlockAt, stripPre, importChars, List.isPrefixOf]
            | cons f s3 =>
              by_cases hpref : ("import".toList.isPrefixOf
                  ((a :: b :: c2 :: d :: e :: f :: s3)
                    ++ ('i' :: 'm' :: 'p' :: 'o' :: 'r' :: 't' :: ' ' :: '('
                      :: rest))) = true
              · rw [importChars] at hpref
                simp only [List.cons_append, List.isPrefixOf, Bool.and_eq_true,
                  beq_iff_eq] at hpref
                obtain ⟨ha1, hb1, hc1, hd1, he1, hf1, -⟩ := hpref
                subst ha1; subst hb1; subst hc1; subst hd1; subst he1; subst hf1
                unfold tryBlockAt
                rw [show stripPre "import".toList
                    (('i' :: 'm' :: 'p' :: 'o' :: 'r' :: 't' :: s3)
                      ++ ('i' :: 'm' :: 'p' :: 'o' :: 'r' :: 't' :: ' ' :: '('
                        :: rest))
                    = some (s3 ++ ('i' :: 'm' :: 'p' :: 'o' :: 'r' :: 't'
                        :: ' ' :: '(' :: rest)) from stripPre_self_append _ _]
                dsimp only
                rw [show dropWsL (s3 ++ ('i' :: 'm' :: 'p' :: 'o' :: 'r' :: 't'
                    :: ' ' :: '(' :: rest))
                    = (s3.dropWhile (fun x => isWs x))
                      ++ ('i' :: 'm' :: 'p' :: 'o' :: 'r' :: 't' :: ' '
                        :: '(' :: rest) from dropWsL_append s3 'i' _ (by decide)]
                have hs3 : ∀ x ∈ s3.dropWhile (fun x => isWs x), ¬ x = '(' := by
                  intro x hx
                  refine hmem x ?_
                  have hx2 : x ∈ s3 := (List.dropWhile_sublist _).subset hx
                  simp [hx2]
                rw [expectChar_paren_none _ 'i' _ hs3 (by decide)]
              · have hpf : ("import".toList.isPrefixOf
                    ((a :: b :: c2 :: d :: e :: f :: s3)
                      ++ ('i' :: 'm' :: 'p' :: 'o' :: 'r' :: 't' :: ' ' :: '('
                        :: rest))) = false := by
                  cases hh : ("import".toList.isPrefixOf
                      ((a :: b :: c2 :: d :: e :: f :: s3)
                        ++ ('i' :: 'm' :: 'p' :: 'o' :: 'r' :: 't' :: ' '
                          :: '(' :: rest))) with
                  | false => rfl
                  | true => exact absurd hh hpref
                unfold tryBlockAt
                rw [show stripPre "import".toList
                    ((a :: b :: c2 :: d :: e :: f :: s3)
                      ++ ('i' :: 'm' :: 'p' :: 'o' :: 'r' :: 't' :: ' ' :: '('
                        :: rest)) = none from by
                  unfold stripPre
                  rw [hpf]
                  simp]

/-- re.search walks positions left to right: positions where the block
fragment fails are skipped. -/
theorem findBlockAux_skip (s1 R : List Char)
    (hfail : ∀ s, s <:+ s1 → s ≠ [] → tryBlockAt (s ++ R) = none) :
    findBlockAux (s1 ++ R) = findBlockAux R := by
  induction s1 with
  | nil => rfl
  | cons c t ih =>
    have hf := hfail (c :: t) List.suffix_rfl (List.cons_ne_nil c t)
    rw [List.cons_append] at hf
    rw [List.cons_append]
    show (match tryBlockAt (c :: (t ++ R)) with
          | some cap => some cap
          | none => findBlockAux (t ++ R)) = findBlockAux R
    rw [hf]
    exact ih (fun s hs2 hne2 => hfail s (hs2.trans (List.suffix_cons c t)) hne2)

/-- No character of the rendered line list of a block is a closing
parenthesis, provided no entry contains one. -/
theorem renderBlockLines_no_paren (ps : List (List Char))
    (hps : ∀ q ∈ ps, ∀ c ∈ q, ¬ c = ')') :
    ∀ c ∈ renderBlockLines ps, ¬ c = ')' := by
  induction ps with
  | nil => intro c hc; simp [renderBlockLines] at hc
  | cons p more ih =>
    intro c hc
    rw [show renderBlockLines (p :: more) = blockLine p ++ renderBlockLines more
        from rfl] at hc
    rcases List.mem_append.mp hc with h1 | h2
    · simp only [blockLine] at h1
      rcases List.mem_cons.mp h1 with rfl | h1b
      · decide
      rcases List.mem_cons.mp h1b with rfl | h1c
      · decide
      rcases List.mem_append.mp h1c with h1d | h1e
      · exact hps p (List.mem_cons_self _ _) c h1d
      rcases List.mem_cons.mp h1e with rfl | h1f
      · decide
      rcases List.mem_cons.mp h1f with rfl | h1g
      · decide
      · simp at h1g
    · exact ih (fun q hq => hps q (List.mem_cons_of_mem _ hq)) c h2

/-- The block fragment succeeds at the opener of a rendered block and
captures exactly up to the block's own closing parenthesis: the leading
newline and the rendered lines. -/
theorem tryBlockAt_renderBlock (ps : List (List Char)) (M : List Char)
    (hps : ∀ q ∈ ps, ∀ c ∈ q, ¬ c = ')') :
    tryBlockAt (renderBlock ps ++ M) = some ('\n' :: renderBlockLines ps) := by
  unfold tryBlockAt
  rw [show renderBlock ps ++ M
      = "import".toList ++ (' ' :: '(' :: (('\n' :: renderBlockLines ps)
          ++ (')' :: '\n' :: M))) from by
    simp [renderBlock, importChars, List.append_assoc]]
  rw [stripPre_self_append]
  dsimp only
  rw [show dropWsL (' ' :: '(' :: (('\n' :: renderBlockLines ps)
      ++ (')' :: '\n' :: M)))
      = '(' :: (('\n' :: renderBlockLines ps) ++ (')' :: '\n' :: M)) from by
    simp [dropWsL, List.dropWhile_cons, isWs]]
  rw [show expectChar '(' ('(' :: (('\n' :: renderBlockLines ps)
      ++ (')' :: '\n' :: M)))
      = some (('\n' :: renderBlockLines ps) ++ (')' :: '\n' :: M)) from by
    simp [expectChar]]
  dsimp only
  have hnp : ∀ c ∈ '\n' :: renderBlockLines ps, c ≠ ')' := by
    intro c hc
    rcases List.mem_cons.mp hc with rfl | hc2
    · decide
    · exact renderBlockLines_no_paren ps hps c hc2
  rw [upToParen_append _ _ hnp]

/-- One unfolding step of the block search. -/
theorem findBlockAux_cons (c : Char) (rest : List Char) :
    findBlockAux (c :: rest)
      = match tryBlockAt (c :: rest) with
        | some cap => some cap
        | none => findBlockAux rest := rfl

/-- On the rendered Go file re.search of the block pattern yields the
first block's capture: no position inside the leading content matches,
and the match at the first opener stops at the first closing
parenthesis. -/
theorem findBlockAux_mkGoFile (pre : List Char) (ps : List (List Char))
    (M : List Char) (hpre : ∀ c ∈ pre, ¬ c = '(')
    (hps : ∀ q ∈ ps, ∀ c ∈ q, ¬ c = ')') :
    findBlockAux (pre ++ (renderBlock ps ++ M))
      = some ('\n' :: renderBlockLines ps) := by
  have hfail : ∀ s, s <:+ pre → s ≠ [] →
      tryBlockAt (s ++ (renderBlock ps ++ M)) = none := by
    intro s hsuf hne
    have hsq : ∀ c ∈ s, ¬ c = '(' :=
      fun c hc => hpre c (hsuf.sublist.subset hc)
    have hform : s ++ (renderBlock ps ++ M)
        = s ++ ('i' :: 'm' :: 'p' :: 'o' :: 'r' :: 't' :: ' ' :: '('
            :: (('\n' :: (renderBlockLines ps ++ [')', '\n'])) ++ M)) := by
      simp [renderBlock, List.append_assoc]
    rw [hform]
    exact tryBlockAt_none_before s _ hsq hne
  rw [findBlockAux_skip pre _ hfail]
  have hform2 : renderBlock ps ++ M
      = 'i' :: (('m' :: 'p' :: 'o' :: 'r' :: 't' :: ' ' :: '(' :: '\n'
          :: (renderBlockLines ps ++ [')', '\n'])) ++ M) := by
    simp [renderBlock]
  have htry := tryBlockAt_renderBlock ps M hps
  rw [hform2] at htry
  rw [hform2, findBlockAux_cons, htry]

/-- One step of the splitter at a separator. -/
theorem splitOnCharAux_sep (sep : Char) (X acc : List Char) :
    splitOnCharAux sep (sep :: X) acc
      = acc.reverse :: splitOnCharAux sep X [] := by
  rw [show splitOnCharAux sep (sep :: X) acc
      = if sep = sep then acc.reverse :: splitOnCharAux sep X []
        else splitOnCharAux sep X (sep :: acc) from rfl]
  rw [if_pos rfl]

/-- One step of the splitter at a non-separator. -/
theorem splitOnCharAux_ne (sep c : Char) (X acc : List Char) (h : ¬ c = sep) :
    splitOnCharAux sep (c :: X) acc = splitOnCharAux sep X (c :: acc) := by
  rw [show splitOnCharAux sep (c :: X) acc
      = if c = sep then acc.reverse :: splitOnCharAux sep X []
        else splitOnCharAux sep X (c :: acc) from rfl]
  rw [if_neg h]

/-- The splitter accumulates a separator-free region wholesale. -/
theorem splitOnCharAux_no_sep (sep : Char) (p X : List Char)
    (hp : ∀ c ∈ p, ¬ c = sep) :
    ∀ acc, splitOnCharAux sep (p ++ X) acc
      = splitOnCharAux sep X (p.reverse ++ acc) := by
  induction p with
  | nil => intro acc; simp
  | cons c t ih =>
    intro acc
    rw [List.cons_append, splitOnCharAux_ne sep c _ _ (hp c (List.mem_cons_self c t))]
    rw [ih (fun x hx => hp x (List.mem_cons_of_mem c hx)) (c :: acc)]
    simp [List.append_assoc]

/-- Splitting the rendered lines of a block on newlines yields one
segment per entry (a tab, the quoted entry) and a final empty segment
from the trailing newline. -/
theorem splitOnCharAux_lines (ps : List (List Char))
    (hps : ∀ q ∈ ps, ∀ c ∈ q, ¬ c = '\n') :
    splitOnCharAux '\n' (renderBlockLines ps) []
      = ps.map (fun q => '\t' :: '"' :: (q ++ ['"'])) ++ [[]] := by
  induction ps with
  | nil => simp [renderBlockLines, splitOnCharAux]
  | cons p more ih =>
    have hform : renderBlockLines (p :: more)
        = ('\t' :: '"' :: (p ++ ['"'])) ++ ('\n' :: renderBlockLines more) := by
      simp [renderBlockLines, blockLine, List.append_assoc]
    have hnosep : ∀ c ∈ '\t' :: '"' :: (p ++ ['"']), ¬ c = '\n' := by
      intro c hc
      rcases List.mem_cons.mp hc with rfl | hc2
      · decide
      rcases List.mem_cons.mp hc2 with rfl | hc3
      · decide
      rcases List.mem_append.mp hc3 with hc4 | hc5
      · exact hps p (List.mem_cons_self _ _) c hc4
      · rcases List.mem_cons.mp hc5 with rfl | hc6
        · decide
        · simp at hc6
    rw [hform, splitOnCharAux_no_sep '\n' _ _ hnosep [], splitOnCharAux_sep]
    rw [ih (fun q hq => hps q (List.mem_cons_of_mem _ hq))]
    simp

/-- The per-line pattern on a rendered entry line: a tab, a quote, a
nonempty quote-free entry, a quote; the capture is the entry. -/
theorem goBlockLine_entry (p : List Char) (hne : p ≠ [])
    (hq : ∀ c ∈ p, ¬ c = '"') :
    goBlockLine (String.mk ('\t' :: '"' :: (p ++ ['"']))) = some (String.mk p) := by
  unfold goBlockLine
  rw [show (String.mk ('\t' :: '"' :: (p ++ ['"']))).toList
      = '\t' :: '"' :: (p ++ ['"']) from rfl]
  rw [show dropWsL ('\t' :: '"' :: (p ++ ['"'])) = '"' :: (p ++ ['"']) from by
    simp [dropWsL, List.dropWhile_cons, isWs]]
  rw [show expectChar '"' ('"' :: (p ++ ['"'])) = some (p ++ ['"']) from by
    simp [expectChar]]
  dsimp only
  rw [show p ++ ['"'] = p ++ '"' :: [] from rfl]
  rw [show capUntil (fun c => c = '"') (p ++ '"' :: [])
      = some (p, []) from by
    unfold capUntil
    rw [List.dropWhile_append_of_pos (by
      intro a ha
      simp [hq a ha]), List.takeWhile_append_of_pos (by
      intro a ha
      simp [hq a ha])]
    rw [show List.dropWhile (fun c => !(c = '"' : Bool)) ['"'] = ['"'] from by
      simp [List.dropWhile_cons]]
    rw [show List.takeWhile (fun c => !(c = '"' : Bool)) ['"'] = [] from by
      simp [List.takeWhile_cons]]
    dsimp only
    rw [if_neg (by simp [hne])]
    simp]
  rfl

/-- The empty segment yields nothing. -/
theorem goBlockLine_empty : goBlockLine (String.mk []) = none := rfl

/-- Processing the first block's capture line by line returns exactly
the entries of the block. -/
theorem blockPkgs_eq (ps : List (List Char))
    (hps : ∀ q ∈ ps, q ≠ [] ∧ ∀ c ∈ q, ¬ c = '"')
    (hnl : ∀ q ∈ ps, ∀ c ∈ q, ¬ c = '\n') :
    (splitOnChar '\n' (String.mk ('\n' :: renderBlockLines ps))).filterMap
        goBlockLine
      = ps.map (fun q => String.mk q) := by
  unfold splitOnChar
  rw [show (String.mk ('\n' :: renderBlockLines ps)).toList
      = '\n' :: renderBlockLines ps from rfl]
  rw [splitOnCharAux_sep, splitOnCharAux_lines ps hnl]
  simp only [List.reverse_nil, List.map_cons, List.map_append, List.map_map,
    List.filterMap_cons, goBlockLine_empty]
  rw [List.filterMap_append]
  rw [show List.filterMap goBlockLine
      (String.mk [] :: List.map String.mk ([] : List (List Char)))
      = [] from rfl]
  rw [List.append_nil]
  induction ps with
  | nil => rfl
  | cons p more ih =>
    rw [List.map_cons, List.map_cons, List.filterMap_cons]
    rw [show (String.mk ∘ fun q => '\t' :: '"' :: (q ++ ['"'])) p
        = String.mk ('\t' :: '"' :: (p ++ ['"'])) from rfl]
    rw [goBlockLine_entry p (hps p (List.mem_cons_self _ _)).1
      (hps p (List.mem_cons_self _ _)).2]
    rw [ih (fun q hq => hps q (List.mem_cons_of_mem _ hq))
      (fun q hq => hnl q (List.mem_cons_of_mem _ hq))]

/-- C9: only the first import ( ... ) block of a Go file contributes
extracted identifiers — quoted paths of any second or later import block
are never extracted.  Formalised over an arbitrary rendered Go file:
any quote-free and parenthesis-free leading content, a first block with
any list of well-formed entries (nonempty, free of quote, closing
parenthesis and newline), any quote-free content between the blocks,
and ANY number of later import blocks with arbitrary newline-free
entries.  Extraction returns exactly the final slash segments of the
first block's entries — the result does not depend on the later blocks
at all — and the extension dispatcher agrees on .go paths. -/
theorem c9_second_block_never_extracted
    (fs : Fs) (path : String) (pre : List Char) (ps : List (List Char))
    (mid : List Char) (qss : List (List (List Char)))
    (hfile : fs path = some (.file ⟨mkGoFile pre ps mid qss, none⟩))
    (hpre : ∀ c ∈ pre, ¬ c = '"' ∧ ¬ c = '(')
    (hmid : ∀ c ∈ mid, ¬ c = '"')
    (hps : ∀ q ∈ ps, q ≠ [] ∧ ∀ c ∈ q, ¬ c = '"' ∧ ¬ c = ')' ∧ ¬ c = '\n')
    (hqss : ∀ qs ∈ qss, ∀ q ∈ qs, ∀ c ∈ q, ¬ c = '\n') :
    extract_go_imports fs path
        = .ok (ps.map (fun q => lastSlashSeg (String.mk q)))
      ∧ (pathSuffix path = ".go" →
          extract_file_imports fs path
            = .ok (ps.map (fun q => lastSlashSeg (String.mk q)))) := by
  have hpre1 : ∀ c ∈ pre, ¬ c = '"' := fun c hc => (hpre c hc).1
  have hpre2 : ∀ c ∈ pre, ¬ c = '(' := fun c hc => (hpre c hc).2
  have hps1 : ∀ q ∈ ps, ∀ c ∈ q, ¬ c = '\n' :=
    fun q hq c hc => ((hps q hq).2 c hc).2.2
  have hps2 : ∀ q ∈ ps, ∀ c ∈ q, ¬ c = ')' :=
    fun q hq c hc => ((hps q hq).2 c hc).2.1
  have hps3 : ∀ q ∈ ps, q ≠ [] ∧ ∀ c ∈ q, ¬ c = '"' :=
    fun q hq => ⟨(hps q hq).1, fun c hc => ((hps q hq).2 c hc).1⟩
  have hmain : extract_go_imports fs path
      = .ok (ps.map (fun q => lastSlashSeg (String.mk q))) := by
    have hstep : extract_go_imports fs path
        = .ok (((scanSingle (pre ++ (renderBlock ps
              ++ (mid ++ renderBlocks qss)))).map
                (fun cap => lastSlashSeg (String.mk cap)))
            ++ (match findBlockAux (pre ++ (renderBlock ps
                  ++ (mid ++ renderBlocks qss))) with
                | none => []
                | some cap =>
                  ((splitOnChar '\n' (String.mk cap)).filterMap
                    goBlockLine).map lastSlashSeg)) := by
      unfold extract_go_imports
      rw [hfile]
      rfl
    rw [hstep, scanSingle_mkGoFile_nil pre mid ps qss hpre1 hmid hps1 hqss,
      findBlockAux_mkGoFile pre ps (mid ++ renderBlocks qss) hpre2 hps2]
    dsimp only
    simp only [List.map_nil, List.nil_append]
    rw [blockPkgs_eq ps hps3 hps1]
    simp [List.map_map, Function.comp]
  refine ⟨hmain, fun hgo => ?_⟩
  have hdisp : extract_file_imports fs path = extract_go_imports fs path := by
    unfold extract_file_imports
    rw [hgo]
    dsimp only
    rw [if_neg (by decide), if_neg (by decide), if_pos rfl]
  rw [hdisp]
  exact hmain

/-- Snapshot for the C9 witness: one Go file whose first import block
lists aaa/bbb and ccc/ddd, followed by two further import blocks. -/
def fsC9g : Fs := fun p =>
  if p = "m.go" then
    some (.file ⟨mkGoFile "package main\n".toList
      ["aaa/bbb".toList, "ccc/ddd".toList] "\nvar x = 1\n".toList
      [["github.com/zzz/qux".toList], ["second/one".toList, "third/two".toList]],
      none⟩)
  else none

/-- Witness for C9 at a concrete file with two later import blocks: the
extractor returns exactly bbb and ddd — nothing from qux, one or two —
and the dispatcher agrees. -/
theorem c9_second_block_witness :
    extract_go_imports fsC9g "m.go" = .ok ["bbb", "ddd"]
      ∧ extract_file_imports fsC9g "m.go" = .ok ["bbb", "ddd"] := by
  have h := c9_second_block_never_extracted fsC9g "m.go"
    "package main\n".toList ["aaa/bbb".toList, "ccc/ddd".toList]
    "\nvar x = 1\n".toList
    [["github.com/zzz/qux".toList], ["second/one".toList, "third/two".toList]]
    (by decide) (by decide) (by decide) (by decide) (by decide)
  refine ⟨?_, ?_⟩
  · rw [h.1]
    decide
  · rw [h.2 (by decide)]
    decide

end ExtractDeps
